import Mathlib

/-!
Shallow embedding of the zero-knowledge range-proof subsystem of
`src/src/algorithms/zkp.rs` (crate `mpc-ts`), together with theorems that
settle the specification claims about it.

Conventions of the embedding:
* Rust `BigInt` (gmp `Mpz`) is Lean `Int`; the Rust `%` operator on `Mpz`
  is truncated remainder, i.e. `Int.tmod`; where both operands are
  non-negative the embedding uses `Int.emod` (`%`), which agrees with the
  truncated remainder there (`Int.tmod_eq_emod`).
* `BigInt::powm` (gmp `mpz_powm`) reduces the result into `[0, m)` and
  treats a negative exponent through the modular inverse of the base.
* Randomness sampled inside a Rust function (ephemeral `alpha, beta, ...`,
  Fiat-Shamir nonces, Schnorr `v`) is passed to the embedded function as an
  explicit argument.
* A Rust panic (an `unwrap`/`expect` on `None`) is modelled by the embedded
  function returning `none`.
-/

/-- the least `x ∈ [0, F)` with `a·x ≡ 1 (mod m)`, if any. -/
def find_inv (a m : Int) : Nat → Option Int
  | 0 => none
  | k + 1 =>
    match find_inv a m k with
    | some x => some x
    | none => if a * (k : Int) % m = 1 % m then some ((k : Nat) : Int) else none

/-- Modular inverse as gmp `mpz_invert` (`BigInt::invert` in the source) for
a positive modulus: `some` of the canonical inverse in `[0, m)` when
`gcd a m = 1`, else `none`.  (The inverse is located by exhaustive search
rather than by the extended Euclid gmp runs; when `gcd a m = 1` and `0 < m`
the inverse in `[0, m)` is unique, so the two agree value for value.) -/
def invert (a m : Int) : Option Int :=
  if Int.gcd a m = 1 then find_inv a m m.toNat else none

/-- Modular exponentiation as gmp `mpz_powm` (`BigInt::powm` in the source),
totalized: a negative exponent raises the modular inverse of the base to the
opposite power, and the division-by-zero gmp raises when that inverse does
not exist — the process aborts — is collapsed to `0 % m` here.  This total
function is therefore faithful only where the exponent is non-negative or
the base invertible; `powm_checked` below keeps the abort, and the theorems
that quantify over adversarial inputs able to reach it are stated over the
checked embeddings. -/
def powm (a e m : Int) : Int :=
  if 0 ≤ e then a ^ e.toNat % m
  else ((invert a m).getD 0) ^ (-e).toNat % m

/-- Modular exponentiation as gmp `mpz_powm` with its error path kept:
`none` models the division-by-zero abort on a negative exponent with a
non-invertible base; on `some` the value agrees with `powm`. -/
def powm_checked (a e m : Int) : Option Int :=
  if 0 ≤ e then some (a ^ e.toNat % m)
  else (invert a m).map (fun i => i ^ (-e).toNat % m)

/-- `HashWithNonce = (BigInt, BigInt)`: a Fiat-Shamir challenge together with
the nonce it was derived with. -/
abbrev HashWithNonce := Int × Int

/-- Modelled from the spec: the hash adapter `HSha512Trunc256` lives in module
`algorithms::sha` of this repository, which is not under `src/`.  Per spec
§4.2 it is SHA-512 truncated to 256 bits over a tuple of big integers; it is
abstracted here as a function `H : List Int → Nat` (hash values are
non-negative).  `create_hash xs` returns the full hash of the inputs. -/
def create_hash (H : List Int → Nat) (xs : List Int) : Int :=
  (H xs : Int)

/-- Modelled from the spec: `create_hash_with_nonce(xs, n) = (H(xs ‖ n), n)`,
the deterministic recomputation used by verifiers (spec §4.2, mode 3). -/
def create_hash_with_nonce (H : List Int → Nat) (xs : List Int) (nonce : Int) : HashWithNonce :=
  ((H (xs ++ [nonce]) : Int), nonce)

/-- Modelled from the spec: `create_hash_bounded_by_q(xs, q)` samples a nonce,
hashes, and resamples until the hash is below `q` (spec §4.2, mode 2).  The
stream of sampled nonces is passed explicitly; `none` models a search that
exhausts the provided randomness. -/
def create_hash_bounded_by_q (H : List Int → Nat) (xs : List Int) (q : Int) :
    List Int → Option HashWithNonce
  | [] => none
  | n :: rest =>
    if (H (xs ++ [n]) : Int) < q then some ((H (xs ++ [n]) : Int), n)
    else create_hash_bounded_by_q H xs q rest

/-- Modelled from the spec: `create_hash_with_random_nonce(xs)` (called by
`BobProof::generate` and `BobProofExt::generate`; the function itself lives in
the missing `algorithms::sha` module).  Per spec §3 and §4.2 the prover-side
derivation samples the nonce so that the reduced hash lies in `[0, q)`, `q`
being the curve order, so it is the bounded-by-`q` derivation. -/
def create_hash_with_random_nonce (H : List Int → Nat) (xs : List Int) (q : Int)
    (nonces : List Int) : Option HashWithNonce :=
  create_hash_bounded_by_q H xs q nonces

/-- The private FO-commitment setup `ZkpSetup` (field for field). -/
structure ZkpSetup where
  p : Int
  q : Int
  order : Int
  alpha : Int
  N_tilda : Int
  h1 : Int
  h2 : Int
deriving DecidableEq

/-- The Schnorr-style proof `ZkpSetupProof`. -/
structure ZkpSetupProof where
  V : Int
  challenge : Int
  r : Int
deriving DecidableEq

/-- The public projection `ZkpPublicSetup`. -/
structure ZkpPublicSetup where
  N_tilda : Int
  h1 : Int
  h2 : Int
  dlog_proof : ZkpSetupProof
  inv_dlog_proof : ZkpSetupProof
deriving DecidableEq

/-- Paillier `EncryptionKey` (external `paillier` crate): modulus `n` and its
square `nn`. -/
structure EncryptionKey where
  n : Int
  nn : Int
deriving DecidableEq

/-- `ZkpSetup::dlog_proof`.  The sampled `v ∈ [1, N_tilda − 1)` is an explicit
argument; `r` is computed with the truncated remainder, exactly as the Rust
`%` on the signed difference. -/
def ZkpSetup.dlog_proof (H : List Int → Nat) (N_tilda h1 h2 dlog order : Int)
    (v : Int) : ZkpSetupProof :=
  let V := powm h1 v N_tilda
  let challenge := create_hash H [N_tilda, V, h1, h2]
  { V := V, challenge := challenge, r := Int.tmod (v - dlog * challenge) order }

/-- `ZkpPublicSetup::from_private_zkp_setup`.  The source unwraps the modular
inverse with `expect("alpha non invertible")`: `none` models that panic.
`v1`, `v2` are the Schnorr nonces of the two sub-proofs. -/
def ZkpPublicSetup.from_private_zkp_setup (H : List Int → Nat) (setup : ZkpSetup)
    (v1 v2 : Int) : Option ZkpPublicSetup :=
  match invert setup.alpha setup.order with
  | none => none
  | some inv_alpha =>
    some { N_tilda := setup.N_tilda, h1 := setup.h1, h2 := setup.h2,
           dlog_proof := ZkpSetup.dlog_proof H setup.N_tilda setup.h1 setup.h2
             setup.alpha setup.order v1,
           inv_dlog_proof := ZkpSetup.dlog_proof H setup.N_tilda setup.h2 setup.h1
             inv_alpha setup.order v2 }

/-- The two distinct `ZkpSetupVerificationError` messages produced by
`ZkpPublicSetup::verify_proof`: `challengeMismatch` stands for the string
`dlog proof: challenge does not match`, `proofMismatch` for `Dlog proof
failed`. -/
inductive ZkpSetupVerificationError where
  | challengeMismatch
  | proofMismatch
deriving DecidableEq

/-- `ZkpPublicSetup::verify_proof`. -/
def ZkpPublicSetup.verify_proof (H : List Int → Nat) (N_tilda h1 h2 : Int)
    (proof : ZkpSetupProof) : Except ZkpSetupVerificationError Unit :=
  let challenge := create_hash H [N_tilda, proof.V, h1, h2]
  if challenge ≠ proof.challenge then
    .error .challengeMismatch
  else
    let V := powm h1 proof.r N_tilda * powm h2 challenge N_tilda % N_tilda
    if V = proof.V then .ok () else .error .proofMismatch

/-- `ZkpPublicSetup::verify`: both sub-proofs must pass. -/
def ZkpPublicSetup.verify (H : List Int → Nat) (ps : ZkpPublicSetup) :
    Except ZkpSetupVerificationError Unit :=
  match ZkpPublicSetup.verify_proof H ps.N_tilda ps.h1 ps.h2 ps.dlog_proof with
  | .error e => .error e
  | .ok _ => ZkpPublicSetup.verify_proof H ps.N_tilda ps.h2 ps.h1 ps.inv_dlog_proof

/-- `ZkpPublicSetup::verify_proof` with gmp's abort kept: the recomputation
of `V` runs `h1^r` through `powm_checked` (`proof.r` is adversarial and may
be negative), `none` propagating the division-by-zero abort; the challenge
comparison precedes every exponentiation, exactly as in the source. -/
def ZkpPublicSetup.verify_proof_checked (H : List Int → Nat)
    (N_tilda h1 h2 : Int) (proof : ZkpSetupProof) :
    Option (Except ZkpSetupVerificationError Unit) :=
  let challenge := create_hash H [N_tilda, proof.V, h1, h2]
  if challenge ≠ proof.challenge then some (.error .challengeMismatch)
  else
    match powm_checked h1 proof.r N_tilda, powm_checked h2 challenge N_tilda with
    | some p1, some p2 =>
      if p1 * p2 % N_tilda = proof.V then some (.ok ())
      else some (.error .proofMismatch)
    | _, _ => none

/-- `ZkpPublicSetup::verify` over the abort-aware `verify_proof_checked`. -/
def ZkpPublicSetup.verify_checked (H : List Int → Nat) (ps : ZkpPublicSetup) :
    Option (Except ZkpSetupVerificationError Unit) :=
  match ZkpPublicSetup.verify_proof_checked H ps.N_tilda ps.h1 ps.h2 ps.dlog_proof with
  | none => none
  | some (.error e) => some (.error e)
  | some (.ok _) =>
    ZkpPublicSetup.verify_proof_checked H ps.N_tilda ps.h2 ps.h1 ps.inv_dlog_proof

/-- Modelled from the spec: the abstract elliptic-curve group `G` of prime
order `q` (external `curv` crate, spec §3 and §6), realised as the cyclic
group generated by `g`: a point is recorded by its discrete logarithm `d`
(the point is `g·d`).  The identity — the point at infinity — has no affine
coordinates. -/
structure GE where
  d : Int
deriving DecidableEq

/-- `ECScalar::from(bigint)`: reduction into the scalar field `Z_q`. -/
def scalar_from (q x : Int) : Int := x % q

/-- `ECPoint::generator() * s` for an already-reduced scalar `s`. -/
def ec_mul_gen (q s : Int) : GE := ⟨s % q⟩

/-- `P * s` (point times scalar). -/
def ec_mul (q : Int) (P : GE) (s : Int) : GE := ⟨P.d * s % q⟩

/-- `P + Q` (point addition). -/
def ec_add (q : Int) (P Q : GE) : GE := ⟨(P.d + Q.d) % q⟩

/-- `x_coor()`: the identity has no affine coordinates. -/
def GE.x_coor (q : Int) (P : GE) : Option Int :=
  if P.d % q = 0 then none else some (P.d % q)

/-- `y_coor()`: the identity has no affine coordinates. -/
def GE.y_coor (q : Int) (P : GE) : Option Int :=
  if P.d % q = 0 then none else some (P.d % q)

/-- Modelled from the spec: Paillier `encrypt_with_chosen_randomness`
(external crate; spec §6 with the glossary shortcut
`Γ^m ≡ m·N + 1 (mod N²)`): `c = (m·N + 1)·r^N mod N²`. -/
def encrypt_with_chosen_randomness (ek : EncryptionKey) (m r : Int) : Int :=
  (m * ek.n + 1) * powm r ek.n ek.nn % ek.nn

/-- Modelled from the spec: Paillier homomorphic multiplication of a
ciphertext by a plaintext scalar, `c^s mod N²`. -/
def paillier_mul (ek : EncryptionKey) (c s : Int) : Int :=
  powm c s ek.nn

/-- Modelled from the spec: Paillier homomorphic addition,
`c1·c2 mod N²`. -/
def paillier_add (ek : EncryptionKey) (c1 c2 : Int) : Int :=
  c1 * c2 % ek.nn

/-- `AliceProof` (field for field). -/
structure AliceProof where
  z : Int
  u : Int
  w : Int
  e : HashWithNonce
  s : Int
  s1 : Int
  s2 : Int
deriving DecidableEq

/-- The ephemeral randomness sampled by `AliceZkpInit::random`:
`alpha ← [0, q³)`, `beta ← Z_N*`, `gamma ← [0, q³·N_tilda)`,
`ro ← [0, q·N_tilda)`. -/
structure AliceZkpInit where
  alpha : Int
  beta : Int
  gamma : Int
  ro : Int
deriving DecidableEq

/-- `AliceZkpRound1::from`. -/
structure AliceZkpRound1 where
  z : Int
  u : Int
  w : Int

/-- the round-1 commitments of Alice's proof. -/
def AliceZkpRound1.of (init : AliceZkpInit) (alice_pk : EncryptionKey)
    (bob_setup : ZkpPublicSetup) (a : Int) : AliceZkpRound1 :=
  { z := powm bob_setup.h1 a bob_setup.N_tilda *
         powm bob_setup.h2 init.ro bob_setup.N_tilda % bob_setup.N_tilda,
    u := (init.alpha * alice_pk.n + 1) *
         powm init.beta alice_pk.n alice_pk.nn % alice_pk.nn,
    w := powm bob_setup.h1 init.alpha bob_setup.N_tilda *
         powm bob_setup.h2 init.gamma bob_setup.N_tilda % bob_setup.N_tilda }

/-- `AliceZkpRound2::from`. -/
structure AliceZkpRound2 where
  s : Int
  s1 : Int
  s2 : Int

/-- the round-2 responses of Alice's proof. -/
def AliceZkpRound2.of (init : AliceZkpInit) (alice_pk : EncryptionKey)
    (e a r : Int) : AliceZkpRound2 :=
  { s := powm r e alice_pk.n * init.beta % alice_pk.n,
    s1 := e * a + init.alpha,
    s2 := e * init.ro + init.gamma }

/-- `AliceProof::generate`.  The ephemeral randomness and the Fiat-Shamir
nonce stream are explicit arguments; `none` models an exhausted nonce
search. -/
def AliceProof.generate (H : List Int → Nat) (a cipher : Int)
    (alice_pk : EncryptionKey) (bob_zkp_setup : ZkpPublicSetup) (r q : Int)
    (init : AliceZkpInit) (nonces : List Int) : Option AliceProof :=
  let round1 := AliceZkpRound1.of init alice_pk bob_zkp_setup a
  let Gen := alice_pk.n + 1
  match create_hash_bounded_by_q H
      [alice_pk.n, Gen, cipher, round1.z, round1.u, round1.w] q nonces with
  | none => none
  | some e =>
    let round2 := AliceZkpRound2.of init alice_pk e.1 a r
    some { z := round1.z, u := round1.u, w := round1.w, e := e,
           s := round2.s, s1 := round2.s1, s2 := round2.s2 }

/-- `AliceProof::verify`, totalized: the source guards both `invert` calls
with explicit `is_none` checks (returning `false`), but the `powm` calls on
adversarial exponents go through the total `powm`, which collapses the gmp
abort; `AliceProof.verify_checked` below keeps that abort. -/
def AliceProof.verify (H : List Int → Nat) (q : Int) (pf : AliceProof)
    (cipher : Int) (alice_ek : EncryptionKey) (bob_zkp_setup : ZkpSetup) : Bool :=
  let N := alice_ek.n
  let NN := alice_ek.nn
  let N_tilda := bob_zkp_setup.N_tilda
  let Gen := alice_ek.n + 1
  let e := create_hash_with_nonce H [N, Gen, cipher, pf.z, pf.u, pf.w] pf.e.2
  if e ≠ pf.e then false
  else if pf.s1 > q ^ 3 then false
  else
    match invert (powm pf.z pf.e.1 N_tilda) N_tilda with
    | none => false
    | some z_e_inv =>
      let wprim := powm bob_zkp_setup.h1 pf.s1 N_tilda *
                   powm bob_zkp_setup.h2 pf.s2 N_tilda * z_e_inv % N_tilda
      if pf.w ≠ wprim then false
      else
        let gs1 := (pf.s1 * N + 1) % NN
        match invert (powm cipher pf.e.1 NN) NN with
        | none => false
        | some cipher_e_inv =>
          let uprim := gs1 * powm pf.s N NN * cipher_e_inv % NN
          if uprim ≠ pf.u then false else true

/-- `AliceProof::verify` with gmp's abort kept: every modular exponentiation
runs through `powm_checked` in source order, `none` propagating the
division-by-zero abort on a negative exponent with a non-invertible base
(the two `invert` calls stay guarded by the source's `is_none` checks and
yield `some false`, not an abort). -/
def AliceProof.verify_checked (H : List Int → Nat) (q : Int) (pf : AliceProof)
    (cipher : Int) (alice_ek : EncryptionKey) (bob_zkp_setup : ZkpSetup) :
    Option Bool :=
  let N := alice_ek.n
  let NN := alice_ek.nn
  let N_tilda := bob_zkp_setup.N_tilda
  let Gen := alice_ek.n + 1
  let e := create_hash_with_nonce H [N, Gen, cipher, pf.z, pf.u, pf.w] pf.e.2
  if e ≠ pf.e then some false
  else if pf.s1 > q ^ 3 then some false
  else
    match powm_checked pf.z pf.e.1 N_tilda with
    | none => none
    | some ze =>
      match invert ze N_tilda with
      | none => some false
      | some z_e_inv =>
        match powm_checked bob_zkp_setup.h1 pf.s1 N_tilda,
            powm_checked bob_zkp_setup.h2 pf.s2 N_tilda with
        | some w1, some w2 =>
          let wprim := w1 * w2 * z_e_inv % N_tilda
          if pf.w ≠ wprim then some false
          else
            let gs1 := (pf.s1 * N + 1) % NN
            match powm_checked cipher pf.e.1 NN with
            | none => none
            | some ce =>
              match invert ce NN with
              | none => some false
              | some cipher_e_inv =>
                match powm_checked pf.s N NN with
                | none => none
                | some sN =>
                  let uprim := gs1 * sN * cipher_e_inv % NN
                  if uprim ≠ pf.u then some false else some true
        | _, _ => none

/-- `MessageA` (field for field). -/
structure MessageA where
  c : Int
  range_proof : Option AliceProof
deriving DecidableEq

/-- `MessageA::new`: encrypt the secret and optionally attach Alice's range
proof.  The Paillier randomness `r` and Alice's ephemeral proof randomness
are explicit arguments. -/
def MessageA.new (H : List Int → Nat) (q : Int) (a : Int)
    (alice_pk : EncryptionKey) (bob_setup : Option ZkpPublicSetup) (r : Int)
    (init : AliceZkpInit) (nonces : List Int) : Option MessageA :=
  let cipher := encrypt_with_chosen_randomness alice_pk a r
  match bob_setup with
  | none => some { c := cipher, range_proof := none }
  | some zkp_setup =>
    match AliceProof.generate H a cipher alice_pk zkp_setup r q init nonces with
    | none => none
    | some pf => some { c := cipher, range_proof := some pf }

/-- `BobProof` (field for field). -/
structure BobProof where
  t : Int
  v : Int
  w : Int
  z : Int
  z_prim : Int
  e : HashWithNonce
  s : Int
  s1 : Int
  s2 : Int
  t1 : Int
  t2 : Int
deriving DecidableEq

/-- `BobProofExt` (field for field). -/
structure BobProofExt where
  proof : BobProof
  u : GE
  X : GE
deriving DecidableEq

/-- The ephemeral randomness sampled by `BobZkpInit::random`:
`alpha ← [0, q³)`, `beta ← Z_N*`, `gamma ← [0, N)`, `ro ← [0, q·N_tilda)`,
`ro_prim ← [0, q³·N_tilda)`, `sigma ← [0, q·N_tilda)`, `tau ← [0, q·N_tilda)`. -/
structure BobZkpInit where
  alpha : Int
  beta : Int
  gamma : Int
  ro : Int
  ro_prim : Int
  sigma : Int
  tau : Int
deriving DecidableEq

/-- `BobZkpRound1::from`. -/
structure BobZkpRound1 where
  z : Int
  z_prim : Int
  t : Int
  w : Int
  v : Int

/-- the round-1 commitments of Bob's proof. -/
def BobZkpRound1.of (init : BobZkpInit) (alice_ek : EncryptionKey)
    (alice_setup : ZkpPublicSetup) (b beta_prim a_encrypted : Int) : BobZkpRound1 :=
  { z := powm alice_setup.h1 b alice_setup.N_tilda *
         powm alice_setup.h2 init.ro alice_setup.N_tilda % alice_setup.N_tilda,
    z_prim := powm alice_setup.h1 init.alpha alice_setup.N_tilda *
              powm alice_setup.h2 init.ro_prim alice_setup.N_tilda % alice_setup.N_tilda,
    t := powm alice_setup.h1 beta_prim alice_setup.N_tilda *
         powm alice_setup.h2 init.sigma alice_setup.N_tilda % alice_setup.N_tilda,
    w := powm alice_setup.h1 init.gamma alice_setup.N_tilda *
         powm alice_setup.h2 init.tau alice_setup.N_tilda % alice_setup.N_tilda,
    v := powm a_encrypted init.alpha alice_ek.nn *
         (init.gamma * alice_ek.n + 1) *
         powm init.beta alice_ek.n alice_ek.nn % alice_ek.nn }

/-- `BobZkpRound2::from`. -/
structure BobZkpRound2 where
  s : Int
  s1 : Int
  s2 : Int
  t1 : Int
  t2 : Int

/-- the round-2 responses of Bob's proof. -/
def BobZkpRound2.of (init : BobZkpInit) (alice_ek : EncryptionKey)
    (e b beta_prim r : Int) : BobZkpRound2 :=
  { s := powm r e alice_ek.n * init.beta % alice_ek.n,
    s1 := e * b + init.alpha,
    s2 := e * init.ro + init.ro_prim,
    t1 := e * beta_prim + init.gamma,
    t2 := e * init.sigma + init.tau }

/-- `BobProof::verify_with_hash`, totalized: the checks are comparisons and
the source has no `invert` call, but the `powm` calls on adversarial
exponents go through the total `powm`, which collapses the gmp abort;
`BobProof.verify_with_hash_checked` below keeps that abort. -/
def BobProof.verify_with_hash (pf : BobProof) (q : Int) (e : HashWithNonce)
    (a_enc mta_avc_out : Int) (alice_ek : EncryptionKey)
    (alice_setup : ZkpSetup) : Bool :=
  let N := alice_ek.n
  let NN := alice_ek.nn
  let N_tilda := alice_setup.N_tilda
  let h1 := alice_setup.h1
  let h2 := alice_setup.h2
  if e ≠ pf.e then false
  else if pf.s1 > q ^ 3 then false
  else
    let lz := powm h1 pf.s1 N_tilda * powm h2 pf.s2 N_tilda % N_tilda
    let rz := powm pf.z e.1 N_tilda * pf.z_prim % N_tilda
    if lz ≠ rz then false
    else
      let lc1 := powm a_enc pf.s1 NN * powm pf.s N NN * (pf.t1 * N + 1) % NN
      let lc2 := powm mta_avc_out e.1 NN * pf.v % NN
      if lc1 ≠ lc2 then false
      else
        let lw := powm h1 pf.t1 N_tilda * powm h2 pf.t2 N_tilda % N_tilda
        let rw := powm pf.t e.1 N_tilda * pf.w % N_tilda
        if lw ≠ rw then false else true

/-- `BobProof::verify`: recompute the challenge with the transmitted nonce,
then run `verify_with_hash`. -/
def BobProof.verify (H : List Int → Nat) (q : Int) (pf : BobProof)
    (a_enc mta_avc_out : Int) (alice_ek : EncryptionKey)
    (alice_setup : ZkpSetup) : Bool :=
  let Gen := alice_ek.n + 1
  let e := create_hash_with_nonce H
    [alice_ek.n, Gen, a_enc, mta_avc_out, pf.z, pf.z_prim, pf.t, pf.v, pf.w] pf.e.2
  BobProof.verify_with_hash pf q e a_enc mta_avc_out alice_ek alice_setup

/-- `BobProof::verify_with_hash` with gmp's abort kept: every modular
exponentiation runs through `powm_checked` in source order, `none`
propagating the division-by-zero abort on a negative exponent with a
non-invertible base. -/
def BobProof.verify_with_hash_checked (pf : BobProof) (q : Int)
    (e : HashWithNonce) (a_enc mta_avc_out : Int) (alice_ek : EncryptionKey)
    (alice_setup : ZkpSetup) : Option Bool :=
  let N := alice_ek.n
  let NN := alice_ek.nn
  let N_tilda := alice_setup.N_tilda
  let h1 := alice_setup.h1
  let h2 := alice_setup.h2
  if e ≠ pf.e then some false
  else if pf.s1 > q ^ 3 then some false
  else
    match powm_checked h1 pf.s1 N_tilda, powm_checked h2 pf.s2 N_tilda,
        powm_checked pf.z e.1 N_tilda with
    | some a1, some a2, some a3 =>
      if a1 * a2 % N_tilda ≠ a3 * pf.z_prim % N_tilda then some false
      else
        match powm_checked a_enc pf.s1 NN, powm_checked pf.s N NN,
            powm_checked mta_avc_out e.1 NN with
        | some b1, some b2, some b3 =>
          if b1 * b2 * (pf.t1 * N + 1) % NN ≠ b3 * pf.v % NN then some false
          else
            match powm_checked h1 pf.t1 N_tilda, powm_checked h2 pf.t2 N_tilda,
                powm_checked pf.t e.1 N_tilda with
            | some c1, some c2, some c3 =>
              if c1 * c2 % N_tilda ≠ c3 * pf.w % N_tilda then some false
              else some true
            | _, _, _ => none
        | _, _, _ => none
    | _, _, _ => none

/-- `BobProof::verify` over the abort-aware `verify_with_hash_checked`. -/
def BobProof.verify_checked (H : List Int → Nat) (q : Int) (pf : BobProof)
    (a_enc mta_avc_out : Int) (alice_ek : EncryptionKey)
    (alice_setup : ZkpSetup) : Option Bool :=
  let Gen := alice_ek.n + 1
  let e := create_hash_with_nonce H
    [alice_ek.n, Gen, a_enc, mta_avc_out, pf.z, pf.z_prim, pf.t, pf.v, pf.w] pf.e.2
  BobProof.verify_with_hash_checked pf q e a_enc mta_avc_out alice_ek alice_setup

/-- `BobProof::generate`. -/
def BobProof.generate (H : List Int → Nat) (a_encrypted mta_encrypted : Int)
    (b beta_prim : Int) (alice_ek : EncryptionKey) (alice_setup : ZkpPublicSetup)
    (r q : Int) (init : BobZkpInit) (nonces : List Int) : Option BobProof :=
  let round1 := BobZkpRound1.of init alice_ek alice_setup b beta_prim a_encrypted
  let Gen := alice_ek.n + 1
  match create_hash_with_random_nonce H
      [alice_ek.n, Gen, a_encrypted, mta_encrypted,
       round1.z, round1.z_prim, round1.t, round1.v, round1.w] q nonces with
  | none => none
  | some e =>
    let round2 := BobZkpRound2.of init alice_ek e.1 b beta_prim r
    some { t := round1.t, v := round1.v, w := round1.w, z := round1.z,
           z_prim := round1.z_prim, e := e, s := round2.s, s1 := round2.s1,
           s2 := round2.s2, t1 := round2.t1, t2 := round2.t2 }

/-- `BobProofExt::verify`.  The source calls `x_coor().unwrap()` and
`y_coor().unwrap()` on the transmitted points `X` and `u` before anything
else; `none` models the panic of those unwraps on a point without affine
coordinates. -/
def BobProofExt.verify (H : List Int → Nat) (q : Int) (pf : BobProofExt)
    (a_enc mta_avc_out : Int) (alice_ek : EncryptionKey)
    (alice_zkp_setup : ZkpSetup) : Option Bool :=
  match GE.x_coor q pf.X, GE.y_coor q pf.X, GE.x_coor q pf.u, GE.y_coor q pf.u with
  | some Xx, some Xy, some ux, some uy =>
    let Gen := alice_ek.n + 1
    let e := create_hash_with_nonce H
      [alice_ek.n, Gen, Xx, Xy, a_enc, mta_avc_out, ux, uy,
       pf.proof.z, pf.proof.z_prim, pf.proof.t, pf.proof.v, pf.proof.w] pf.proof.e.2
    if BobProof.verify_with_hash pf.proof q e a_enc mta_avc_out alice_ek alice_zkp_setup then
      let x1 := ec_mul_gen q (scalar_from q pf.proof.s1)
      let x2 := ec_add q (ec_mul q pf.X (scalar_from q pf.proof.e.1)) pf.u
      if x1 ≠ x2 then some false else some true
    else
      some false
  | _, _, _, _ => none

/-- `BobProofExt::verify` with both panic paths kept: the coordinate
unwraps of the transmitted points `X` and `u` (`none` on the identity) and,
through `verify_with_hash_checked`, the gmp aborts inside the embedded
range proof. -/
def BobProofExt.verify_checked (H : List Int → Nat) (q : Int)
    (pf : BobProofExt) (a_enc mta_avc_out : Int) (alice_ek : EncryptionKey)
    (alice_zkp_setup : ZkpSetup) : Option Bool :=
  match GE.x_coor q pf.X, GE.y_coor q pf.X, GE.x_coor q pf.u, GE.y_coor q pf.u with
  | some Xx, some Xy, some ux, some uy =>
    let Gen := alice_ek.n + 1
    let e := create_hash_with_nonce H
      [alice_ek.n, Gen, Xx, Xy, a_enc, mta_avc_out, ux, uy,
       pf.proof.z, pf.proof.z_prim, pf.proof.t, pf.proof.v, pf.proof.w] pf.proof.e.2
    match BobProof.verify_with_hash_checked pf.proof q e a_enc mta_avc_out
        alice_ek alice_zkp_setup with
    | none => none
    | some false => some false
    | some true =>
      let x1 := ec_mul_gen q (scalar_from q pf.proof.s1)
      let x2 := ec_add q (ec_mul q pf.X (scalar_from q pf.proof.e.1)) pf.u
      if x1 ≠ x2 then some false else some true
  | _, _, _, _ => none

/-- `BobProofExt::generate`: as `BobProof::generate`, but first commits
`u = g·alpha` and publishes `X = g·b`; their affine coordinates enter the
Fiat-Shamir transcript through the same unwraps (`none` models the panic,
which can fire only when `X` or `u` is the identity). -/
def BobProofExt.generate (H : List Int → Nat) (a_encrypted mta_encrypted : Int)
    (b beta_prim : Int) (alice_ek : EncryptionKey) (alice_setup : ZkpPublicSetup)
    (r q : Int) (init : BobZkpInit) (nonces : List Int) : Option BobProofExt :=
  let X := ec_mul_gen q b
  let u := ec_mul_gen q (scalar_from q init.alpha)
  let round1 := BobZkpRound1.of init alice_ek alice_setup b beta_prim a_encrypted
  let Gen := alice_ek.n + 1
  match GE.x_coor q X, GE.y_coor q X, GE.x_coor q u, GE.y_coor q u with
  | some Xx, some Xy, some ux, some uy =>
    match create_hash_with_random_nonce H
        [alice_ek.n, Gen, Xx, Xy, a_encrypted, mta_encrypted, ux, uy,
         round1.z, round1.z_prim, round1.t, round1.v, round1.w] q nonces with
    | none => none
    | some e =>
      let round2 := BobZkpRound2.of init alice_ek e.1 b beta_prim r
      some { proof := { t := round1.t, v := round1.v, w := round1.w, z := round1.z,
                        z_prim := round1.z_prim, e := e, s := round2.s, s1 := round2.s1,
                        s2 := round2.s2, t1 := round2.t1, t2 := round2.t2 },
             u := u, X := X }
  | _, _, _, _ => none

/-- Modelled from the spec: `DLogProof` of the external `curv` crate
(`sigma_dlog`), a simple Schnorr discrete-log proof over `G` (spec §4.6). -/
structure DLogProof where
  pk : GE
  pk_t_rand_commitment : GE
  challenge_response : Int
deriving DecidableEq

/-- Modelled from the spec: `DLogProof::prove(sk)` with an explicit ephemeral
scalar `k`. -/
def DLogProof.prove (H : List Int → Nat) (q sk k : Int) : DLogProof :=
  let pk := ec_mul_gen q sk
  let commitment := ec_mul_gen q k
  let challenge := (H [commitment.d, pk.d] : Int) % q
  { pk := pk, pk_t_rand_commitment := commitment,
    challenge_response := (k - sk % q * challenge) % q }

/-- `DLogProofs` (field for field). -/
structure DLogProofs where
  b_proof : DLogProof
  beta_tag_proof : DLogProof
deriving DecidableEq

/-- `BobProofType` (tag for tag). -/
inductive BobProofType where
  | RangeProofExt (p : BobProofExt)
  | RangeProof (p : BobProof)
  | DLogProofs (p : DLogProofs)
deriving DecidableEq

/-- `MTAMode` (tag for tag). -/
inductive MTAMode where
  | MtA
  | MtAwc
deriving DecidableEq

/-- `MessageB` (field for field). -/
structure MessageB where
  c : Int
  proof : BobProofType
deriving DecidableEq

/-- `MessageB::new`: compute `c₂ = b·c₁ ⊕ Enc(β′; r)` homomorphically, derive
Bob's additive share `β = −β′ mod q`, and attach the proof variant selected
by `(alice_zkp_setup, mta_mode)`.  The sampled `β′`, the Paillier randomness
`r`, Bob's ephemeral proof randomness and the ephemeral scalars `k1`, `k2` of
the fallback discrete-log proofs are explicit arguments. -/
def MessageB.new (H : List Int → Nat) (q : Int) (b : Int)
    (alice_ek : EncryptionKey) (alice_zkp_setup : Option ZkpPublicSetup)
    (alice_msg : MessageA) (mta_mode : MTAMode) (beta_prim r : Int)
    (init : BobZkpInit) (nonces : List Int) (k1 k2 : Int) :
    Option (MessageB × Int) :=
  let alice_c := alice_msg.c
  let b_times_enc_a := paillier_mul alice_ek alice_c b
  let enc_beta_prim := encrypt_with_chosen_randomness alice_ek beta_prim r
  let mta_out := paillier_add alice_ek b_times_enc_a enc_beta_prim
  let beta_prim_fe := scalar_from q beta_prim
  let beta := (0 - beta_prim_fe) % q
  match alice_zkp_setup with
  | some zkp_setup =>
    match mta_mode with
    | MTAMode.MtA =>
      match BobProof.generate H alice_c mta_out b beta_prim alice_ek zkp_setup r q
          init nonces with
      | none => none
      | some p => some ({ c := mta_out, proof := BobProofType.RangeProof p }, beta)
    | MTAMode.MtAwc =>
      match BobProofExt.generate H alice_c mta_out b beta_prim alice_ek zkp_setup r q
          init nonces with
      | none => none
      | some p => some ({ c := mta_out, proof := BobProofType.RangeProofExt p }, beta)
  | none =>
    some ({ c := mta_out,
            proof := BobProofType.DLogProofs
              { b_proof := DLogProof.prove H q b k1,
                beta_tag_proof := DLogProof.prove H q beta_prim_fe k2 } }, beta)

/-! Infrastructure lemmas about the embedded arithmetic. -/

lemma intCast_emod_cast (a : Int) (n : Nat) :
    (((a % (n : Int)) : Int) : ZMod n) = (a : ZMod n) := by
  have h : a % (n : Int) ≡ a [ZMOD (n : Int)] := Int.emod_emod_of_dvd a dvd_rfl
  exact (ZMod.intCast_eq_intCast_iff _ _ _).mpr h

lemma emod_eq_of_cast_eq {m : Int} {n : Nat} (hm : m = (n : Int)) {x y : Int}
    (h : (x : ZMod n) = (y : ZMod n)) : x % m = y % m := by
  subst hm
  exact (ZMod.intCast_eq_intCast_iff _ _ _).mp h

lemma eq_of_emod_eq {m x y : Int} (hx0 : 0 ≤ x) (hx : x < m) (hy0 : 0 ≤ y)
    (hy : y < m) (h : x % m = y % m) : x = y := by
  rw [Int.emod_eq_of_lt hx0 hx, Int.emod_eq_of_lt hy0 hy] at h
  exact h

lemma cast_powm {a e m : Int} {n : Nat} (hm : m = (n : Int)) (he : 0 ≤ e) :
    ((powm a e m : Int) : ZMod n) = (a : ZMod n) ^ e.toNat := by
  subst hm
  rw [powm, if_pos he, intCast_emod_cast]
  push_cast
  ring

lemma powm_nonneg {a e m : Int} (hm : 0 < m) : 0 ≤ powm a e m := by
  rw [powm]
  split <;> exact Int.emod_nonneg _ (by omega)

lemma powm_lt {a e m : Int} (hm : 0 < m) : powm a e m < m := by
  rw [powm]
  split <;> exact Int.emod_lt_of_pos _ hm

lemma invert_eq_none {a m : Int} (h : Int.gcd a m ≠ 1) : invert a m = none := by
  simp [invert, h]

lemma invert_gcd {a m x : Int} (h : invert a m = some x) : Int.gcd a m = 1 := by
  by_cases hg : Int.gcd a m = 1
  · exact hg
  · simp [invert, hg] at h

lemma find_inv_spec {a m : Int} {F : Nat} {x : Int} (h : find_inv a m F = some x) :
    a * x % m = 1 % m ∧ 0 ≤ x := by
  induction F with
  | zero => simp [find_inv] at h
  | succ k ih =>
    rw [find_inv] at h
    cases hf : find_inv a m k with
    | some y =>
      rw [hf, Option.some_inj] at h
      subst h
      exact ih hf
    | none =>
      rw [hf] at h
      by_cases hc : a * (k : Int) % m = 1 % m
      · rw [if_pos hc, Option.some_inj] at h
        subst h
        exact ⟨hc, Int.natCast_nonneg k⟩
      · rw [if_neg hc] at h
        cases h

lemma find_inv_isSome {a m x : Int} {F : Nat} (hx0 : 0 ≤ x) (hxF : x < (F : Int))
    (hx : a * x % m = 1 % m) : (find_inv a m F).isSome := by
  induction F with
  | zero => exact absurd hxF (by omega)
  | succ k ih =>
    rw [find_inv]
    cases hf : find_inv a m k with
    | some y => simp
    | none =>
      rcases lt_or_le x (k : Int) with hlt | hge
      · have := ih hlt
        rw [hf] at this
        simp at this
      · have hxk : x = (k : Int) := by omega
        rw [← hxk, if_pos hx]
        simp

lemma invert_spec {a m x : Int} (h : invert a m = some x) :
    a * x % m = 1 % m ∧ 0 ≤ x := by
  have hg := invert_gcd h
  rw [invert, if_pos hg] at h
  exact find_inv_spec h

lemma invert_isSome_of_gcd {a m : Int} (hm : 0 < m) (hg : Int.gcd a m = 1) :
    ∃ x, invert a m = some x := by
  have hx0 : 0 ≤ Int.gcdA a m % m := Int.emod_nonneg _ (by omega)
  have hxm : Int.gcdA a m % m < m := Int.emod_lt_of_pos _ hm
  have hspec : a * (Int.gcdA a m % m) % m = 1 % m := by
    have hb := Int.gcd_eq_gcd_ab a m
    rw [hg] at hb
    have h1 : a * (Int.gcdA a m % m) ≡ a * Int.gcdA a m [ZMOD m] :=
      (Int.ModEq.refl a).mul (Int.emod_emod_of_dvd _ dvd_rfl)
    have h2 : a * Int.gcdA a m ≡ 1 [ZMOD m] := by
      rw [Int.modEq_iff_dvd]
      refine ⟨Int.gcdB a m, ?_⟩
      push_cast at hb
      linarith
    exact h1.trans h2
  have hsome := find_inv_isSome hx0
    (by rw [Int.toNat_of_nonneg hm.le]; exact hxm) hspec
  rw [invert, if_pos hg]
  exact Option.isSome_iff_exists.mp hsome

lemma cast_invert {a x : Int} {n : Nat} (h : invert a ((n : Nat) : Int) = some x) :
    (a : ZMod n) * (x : ZMod n) = 1 := by
  have hs := (invert_spec h).1
  have hcast : (((a * x % ((n : Nat) : Int)) : Int) : ZMod n) =
      (((1 % ((n : Nat) : Int)) : Int) : ZMod n) := by rw [hs]
  rw [intCast_emod_cast, intCast_emod_cast] at hcast
  push_cast at hcast
  exact hcast

lemma isCoprime_of_gcd_eq_one {a m : Int} (h : Int.gcd a m = 1) : IsCoprime a m :=
  Int.gcd_eq_one_iff_coprime.mp h

lemma gcd_eq_one_of_isCoprime {a m : Int} (h : IsCoprime a m) : Int.gcd a m = 1 :=
  Int.gcd_eq_one_iff_coprime.mpr h

lemma isCoprime_emod {a m : Int} (h : IsCoprime a m) : IsCoprime (a % m) m := by
  rw [Int.emod_def, sub_eq_add_neg, ← mul_neg]
  exact h.add_mul_left_left _

lemma gcd_powm {a e m : Int} (hg : Int.gcd a m = 1) (he : 0 ≤ e) :
    Int.gcd (powm a e m) m = 1 := by
  apply gcd_eq_one_of_isCoprime
  rw [powm, if_pos he]
  exact isCoprime_emod ((isCoprime_of_gcd_eq_one hg).pow_left)

lemma gcd_mul_emod {a b m : Int} (ha : Int.gcd a m = 1) (hb : Int.gcd b m = 1) :
    Int.gcd (a * b % m) m = 1 := by
  apply gcd_eq_one_of_isCoprime
  exact isCoprime_emod ((isCoprime_of_gcd_eq_one ha).mul_left (isCoprime_of_gcd_eq_one hb))

lemma exists_unit_of_gcd {a : Int} {n : Nat} [NeZero n] (hg : Int.gcd a (n : Int) = 1) :
    ∃ u : (ZMod n)ˣ, (u : ZMod n) = (a : ZMod n) := by
  obtain ⟨x, hsome⟩ := invert_isSome_of_gcd
    (by exact_mod_cast Nat.pos_of_ne_zero (NeZero.ne n)) hg
  have h1 := cast_invert hsome
  exact ⟨⟨(a : ZMod n), _, h1, by rw [mul_comm] at h1; exact h1⟩, rfl⟩

lemma one_add_nilpotent_pow {R : Type} [CommRing R] (x : R) (hx : x * x = 0) (k : ℕ) :
    (1 + x) ^ k = 1 + (k : R) * x := by
  induction k with
  | zero => simp
  | succ k ih =>
    rw [pow_succ, ih]
    push_cast
    linear_combination (k : R) * hx

lemma pow_emod_congr_sq {x y N : Int} (hN : 0 < N) (h : x % N = y % N) :
    x ^ N.toNat ≡ y ^ N.toNat [ZMOD N * N] := by
  have hNm : N = (N.toNat : Int) := (Int.toNat_of_nonneg hN.le).symm
  set m := N.toNat with hm
  have hxy : (N : Int) ∣ x - y := (Int.ModEq.symm (show x ≡ y [ZMOD N] from h)).dvd
  have hS : (N : Int) ∣ ∑ i ∈ Finset.range m, x ^ i * y ^ (m - 1 - i) := by
    rw [hNm, ← ZMod.intCast_zmod_eq_zero_iff_dvd]
    push_cast
    have hxy2 : (x : ZMod m) = (y : ZMod m) := by
      apply (ZMod.intCast_eq_intCast_iff _ _ _).mpr
      show x % (m : Int) = y % (m : Int)
      rw [← hNm]
      exact h
    calc (∑ i ∈ Finset.range m, (x : ZMod m) ^ i * (y : ZMod m) ^ (m - 1 - i))
        = ∑ _i ∈ Finset.range m, (y : ZMod m) ^ (m - 1) := by
          apply Finset.sum_congr rfl
          intro i hi
          rw [hxy2, ← pow_add]
          congr 1
          have := Finset.mem_range.mp hi
          omega
      _ = (m : ZMod m) * (y : ZMod m) ^ (m - 1) := by
          rw [Finset.sum_const, Finset.card_range, nsmul_eq_mul]
      _ = 0 := by rw [ZMod.natCast_self, zero_mul]
  have hdvd : (N * N : Int) ∣ x ^ m - y ^ m := by
    rw [← geom_sum₂_mul x y m]
    exact mul_dvd_mul hS hxy
  rw [Int.modEq_iff_dvd, ← neg_sub]
  exact dvd_neg.mpr hdvd

lemma zpow_congr_of_modEq {G : Type} [Group G] (u : G) {d a b : Int}
    (h1 : u ^ d = 1) (h : a ≡ b [ZMOD d]) : u ^ a = u ^ b := by
  obtain ⟨k, hk⟩ := Int.modEq_iff_dvd.mp h
  have hb : b = a + d * k := by linarith
  rw [hb, zpow_add, zpow_mul, h1, one_zpow, mul_one]

lemma create_hash_bounded_spec {H : List Int → Nat} {xs : List Int} {q : Int}
    {ns : List Int} {e : HashWithNonce}
    (h : create_hash_bounded_by_q H xs q ns = some e) :
    0 ≤ e.1 ∧ e.1 < q ∧ e = create_hash_with_nonce H xs e.2 := by
  induction ns with
  | nil => simp [create_hash_bounded_by_q] at h
  | cons n rest ih =>
    rw [create_hash_bounded_by_q] at h
    split at h
    · rw [Option.some_inj] at h
      subst h
      exact ⟨Int.natCast_nonneg _, by assumption, rfl⟩
    · exact ih h

lemma cast_powm_unit {a e m : Int} {n : Nat} [NeZero n] (hm : m = (n : Int))
    (hg : Int.gcd a m = 1) (u : (ZMod n)ˣ)
    (hu : (u : ZMod n) = (a : ZMod n)) :
    ((powm a e m : Int) : ZMod n) = ((u ^ e : (ZMod n)ˣ) : ZMod n) := by
  subst hm
  rcases le_or_lt 0 e with he | he
  · rw [cast_powm rfl he, ← hu, ← Units.val_pow_eq_pow_val]
    congr 1
    rw [← zpow_natCast u e.toNat, Int.toNat_of_nonneg he]
  · obtain ⟨x, hsome⟩ := invert_isSome_of_gcd
      (by exact_mod_cast Nat.pos_of_ne_zero (NeZero.ne n)) hg
    rw [powm, if_neg (not_le.mpr he), hsome, Option.getD_some, intCast_emod_cast]
    push_cast
    have hxinv : ((x : Int) : ZMod n) = ((u⁻¹ : (ZMod n)ˣ) : ZMod n) := by
      have h1 := cast_invert hsome
      rw [← hu] at h1
      exact (Units.inv_eq_of_mul_eq_one_right h1).symm
    rw [hxinv]
    have hue : u ^ e = (u ^ (-e).toNat)⁻¹ := by
      rw [← zpow_natCast u (-e).toNat, Int.toNat_of_nonneg (by omega : (0 : Int) ≤ -e),
        zpow_neg, inv_inv]
    rw [hue, ← inv_pow, ← Units.val_pow_eq_pow_val]

lemma natAbs_tmod (a b : Int) : (Int.tmod a b).natAbs = a.natAbs % b.natAbs := by
  rcases a with m | m <;> rcases b with n | n <;>
    simp [Int.tmod, Int.natAbs_ofNat, Int.natAbs_neg] <;> rfl

lemma tmod_modEq (a b : Int) : Int.tmod a b ≡ a [ZMOD b] := by
  rw [Int.modEq_iff_dvd]
  have h := Int.tmod_add_tdiv a b
  exact ⟨a.tdiv b, by linarith⟩

lemma tmod_nonpos (a b : Int) (h : a ≤ 0) : Int.tmod a b ≤ 0 := by
  have hneg : Int.tmod (-a) b = -Int.tmod a b := by
    rw [Int.tmod_def, Int.tmod_def, Int.neg_tdiv]
    ring
  have h2 := Int.tmod_nonneg b (by omega : (0 : Int) ≤ -a)
  omega

lemma powm_checked_of_nonneg {a e m : Int} (h : 0 ≤ e) :
    powm_checked a e m = some (powm a e m) := by
  rw [powm_checked, powm, if_pos h, if_pos h]

lemma powm_checked_eq_some_powm {a e m : Int} (h : (powm_checked a e m).isSome) :
    powm_checked a e m = some (powm a e m) := by
  by_cases he : 0 ≤ e
  · exact powm_checked_of_nonneg he
  · rw [powm_checked, if_neg he] at h ⊢
    rcases hi : invert a m with _ | i
    · simp [hi] at h
    · show some _ = some (powm a e m)
      rw [powm, if_neg he, hi]
      rfl

lemma create_hash_with_nonce_nonneg (H : List Int → Nat) (xs : List Int)
    (n : Int) : 0 ≤ (create_hash_with_nonce H xs n).1 :=
  Int.natCast_nonneg _

/-- The post-conditions of `ZkpSetup::random` (an honestly generated setup):
`p` and `q` are safe primes, `N_tilda = p·q`, `order` is the product of the
Sophie-Germain halves, `alpha` is sampled in `[1, order)`,
`h2 = h1^alpha mod N_tilda`, and (modelled from the spec, as the generator
oracle `sample_generator_of_rsa_group` is not under `src/`) `h1` generates
the quadratic-residue subgroup: it is a unit of order dividing `order`. -/
def HonestZkpSetup (s : ZkpSetup) : Prop :=
  ∃ p_prim q_prim : Nat,
    Nat.Prime p_prim ∧ Nat.Prime q_prim ∧
    Nat.Prime (2 * p_prim + 1) ∧ Nat.Prime (2 * q_prim + 1) ∧
    s.p = ((2 * p_prim + 1 : Nat) : Int) ∧ s.q = ((2 * q_prim + 1 : Nat) : Int) ∧
    s.N_tilda = s.p * s.q ∧ s.order = ((p_prim * q_prim : Nat) : Int) ∧
    1 ≤ s.alpha ∧ s.alpha < s.order ∧
    Int.gcd s.h1 s.N_tilda = 1 ∧
    powm s.h1 s.order s.N_tilda = 1 ∧
    s.h2 = powm s.h1 s.alpha s.N_tilda

lemma honest_N_tilda_pos {s : ZkpSetup} (h : HonestZkpSetup s) : 1 < s.N_tilda := by
  obtain ⟨p1, q1, hp1, hq1, _, _, hsp, hsq, hN, _⟩ := h
  have h2 := hp1.two_le
  have h3 := hq1.two_le
  rw [hN, hsp, hsq]
  push_cast
  nlinarith

lemma honest_order_pos {s : ZkpSetup} (h : HonestZkpSetup s) : 0 < s.order := by
  obtain ⟨p1, q1, hp1, hq1, _, _, _, _, _, hord, _⟩ := h
  have h2 := hp1.two_le
  have h3 := hq1.two_le
  rw [hord]
  push_cast
  nlinarith

/-! Concrete fixtures used by witnesses and counterexamples. -/

/-- a concrete instance of the abstract hash: every input hashes to 2. -/
def testH : List Int → Nat := fun _ => 2

/-- a tiny honestly-generated FO setup: safe primes 5 = 2·2+1 and 7 = 2·3+1,
`h1 = 4` generates the quadratic-residue subgroup of `Z_35*` (order 6), and
`alpha = 5` is invertible modulo 6. -/
def testSetup : ZkpSetup :=
  { p := 5, q := 7, order := 6, alpha := 5, N_tilda := 35, h1 := 4, h2 := 9 }

/-- the same honest generation with `alpha = 2 ∈ [1, 6)`, which is not
invertible modulo `order = 6`. -/
def badSetup : ZkpSetup :=
  { p := 5, q := 7, order := 6, alpha := 2, N_tilda := 35, h1 := 4, h2 := 16 }

/-- ditto with `alpha = 3 ∈ [1, 6)`, also not invertible modulo 6. -/
def badSetup3 : ZkpSetup :=
  { p := 5, q := 7, order := 6, alpha := 3, N_tilda := 35, h1 := 4, h2 := 29 }

/-- a tiny Paillier key, `N = 3·5`. -/
def testEk : EncryptionKey := { n := 15, nn := 225 }

/-- the public projection of `testSetup` (Schnorr nonces `v1 = v2 = 1`). -/
def testPub : ZkpPublicSetup :=
  { N_tilda := 35, h1 := 4, h2 := 9,
    dlog_proof := { V := 4, challenge := 2, r := -3 },
    inv_dlog_proof := { V := 9, challenge := 2, r := -3 } }

/-- an out-of-range Alice proof: `s1 = 28 > 27 = 3³`. -/
def pfA0 : AliceProof :=
  { z := 0, u := 0, w := 0, e := (0, 0), s := 0, s1 := 28, s2 := 0 }

/-- an out-of-range Bob proof: `s1 = 28 > 27 = 3³`. -/
def pfB0 : BobProof :=
  { t := 0, v := 0, w := 0, z := 0, z_prim := 0, e := (0, 0), s := 0,
    s1 := 28, s2 := 0, t1 := 0, t2 := 0 }

/-- an out-of-range extended Bob proof with well-formed points. -/
def pfE0 : BobProofExt := { proof := pfB0, u := ⟨1⟩, X := ⟨2⟩ }

/-- an extended Bob proof whose point `X` is the identity, which has no
affine coordinates. -/
def pfEbad : BobProofExt := { proof := pfB0, u := ⟨1⟩, X := ⟨0⟩ }

/-- `BobProof::verify_with_hash` rejects whenever `s1 > q³`, whatever the
other fields and the supplied hash are: either the hash comparison or the
range check fires first, and both return `false`. -/
lemma verify_with_hash_false_of_s1 {pf : BobProof} {q : Int} {e : HashWithNonce}
    {a_enc mta : Int} {ek : EncryptionKey} {setup : ZkpSetup}
    (hs1 : pf.s1 > q ^ 3) :
    BobProof.verify_with_hash pf q e a_enc mta ek setup = false := by
  simp only [BobProof.verify_with_hash]
  split_ifs <;> rfl

/-- C4: a proof whose `s1` exceeds `q³` is rejected by `AliceProof::verify`,
by `BobProof::verify_with_hash` (hence by `BobProof::verify`), and a
`BobProofExt` carrying such an embedded proof never verifies to `true` —
regardless of every other field. -/
theorem claim_C4_range_check_rejection
    (H : List Int → Nat) (q : Int) (pfA : AliceProof) (cipher : Int)
    (ekA : EncryptionKey) (setupA : ZkpSetup) (pfB : BobProof) (e : HashWithNonce)
    (a_enc mta : Int) (ekB : EncryptionKey) (setupB : ZkpSetup) (pfE : BobProofExt)
    (hA : pfA.s1 > q ^ 3) (hB : pfB.s1 > q ^ 3) (hE : pfE.proof.s1 > q ^ 3) :
    AliceProof.verify H q pfA cipher ekA setupA = false ∧
    BobProof.verify_with_hash pfB q e a_enc mta ekB setupB = false ∧
    BobProof.verify H q pfB a_enc mta ekB setupB = false ∧
    BobProofExt.verify H q pfE a_enc mta ekB setupB ≠ some true := by
  refine ⟨?_, verify_with_hash_false_of_s1 hB, ?_, ?_⟩
  · simp only [AliceProof.verify]
    split_ifs <;> rfl
  · simp only [BobProof.verify]
    exact verify_with_hash_false_of_s1 hB
  · rcases h1 : GE.x_coor q pfE.X with _ | x1 <;>
      rcases h2 : GE.y_coor q pfE.X with _ | y1 <;>
        rcases h3 : GE.x_coor q pfE.u with _ | x2 <;>
          rcases h4 : GE.y_coor q pfE.u with _ | y2 <;>
            simp [BobProofExt.verify, h1, h2, h3, h4, verify_with_hash_false_of_s1 hE]

/-- C4 witness: concrete out-of-range proofs over the toy fixtures are all
rejected. -/
theorem claim_C4_witness :
    AliceProof.verify testH 3 pfA0 0 testEk testSetup = false ∧
    BobProof.verify testH 3 pfB0 0 0 testEk testSetup = false ∧
    BobProofExt.verify testH 3 pfE0 0 0 testEk testSetup ≠ some true := by
  have h := claim_C4_range_check_rejection testH 3 pfA0 0 testEk testSetup pfB0 (0, 0)
    0 0 testEk testSetup pfE0 (by decide) (by decide) (by decide)
  exact ⟨h.1, h.2.2.1, h.2.2.2⟩

/-- C6 (amended): the response field `r` of `ZkpSetup::dlog_proof` is the
truncated remainder of `v − dlog·challenge` by `order`: it is congruent to
`v − dlog·challenge` modulo `order` and smaller than `order` in absolute
value; it is non-negative whenever the (rarely non-negative) difference is
and non-positive whenever the difference is non-positive — so a negative
difference yields `r ≤ 0`, with `r = 0` only on differences divisible by
`order` — and it is not in general the canonical non-negative
representative. -/
theorem claim_C6_schnorr_response (H : List Int → Nat)
    (N_tilda h1 h2 dlog order v : Int) (hord : order ≠ 0) :
    (ZkpSetup.dlog_proof H N_tilda h1 h2 dlog order v).r ≡
      v - dlog * create_hash H [N_tilda, powm h1 v N_tilda, h1, h2] [ZMOD order] ∧
    (ZkpSetup.dlog_proof H N_tilda h1 h2 dlog order v).r.natAbs < order.natAbs ∧
    (0 ≤ v - dlog * create_hash H [N_tilda, powm h1 v N_tilda, h1, h2] →
      0 ≤ (ZkpSetup.dlog_proof H N_tilda h1 h2 dlog order v).r) ∧
    (v - dlog * create_hash H [N_tilda, powm h1 v N_tilda, h1, h2] ≤ 0 →
      (ZkpSetup.dlog_proof H N_tilda h1 h2 dlog order v).r ≤ 0) := by
  have hr : (ZkpSetup.dlog_proof H N_tilda h1 h2 dlog order v).r =
      Int.tmod (v - dlog * create_hash H [N_tilda, powm h1 v N_tilda, h1, h2]) order := rfl
  refine ⟨?_, ?_, ?_, ?_⟩
  · rw [hr]
    exact tmod_modEq _ _
  · rw [hr, natAbs_tmod]
    exact Nat.mod_lt _ (Int.natAbs_pos.mpr hord)
  · intro h
    rw [hr]
    exact Int.tmod_nonneg _ h
  · intro h
    rw [hr]
    exact tmod_nonpos _ _ h

/-- C6 counterexample: with the honest toy setup (`h1 = 4`, `h2 = 9`,
`dlog = 5`, `order = 6`) and the sampled `v = 1`, the returned `r` is `−3`,
which is negative — not the canonical non-negative representative the claim
asserts. -/
theorem claim_C6_counterexample : (ZkpSetup.dlog_proof testH 35 4 9 5 6 1).r < 0 := by
  decide

/-- C6 witness: the amended statement evaluated on the same concrete call. -/
theorem claim_C6_witness :
    (ZkpSetup.dlog_proof testH 35 4 9 5 6 1).r ≡
      1 - 5 * create_hash testH [35, powm 4 1 35, 4, 9] [ZMOD 6] ∧
    (ZkpSetup.dlog_proof testH 35 4 9 5 6 1).r.natAbs < (6 : Int).natAbs := by
  have h := claim_C6_schnorr_response testH 35 4 9 5 6 1 (by decide)
  exact ⟨h.1, h.2.1⟩

/-- C7: every proof emitted by `AliceProof::generate`, `BobProof::generate`
or `BobProofExt::generate` carries a Fiat-Shamir challenge `e.0 ∈ [0, q)`:
the nonce was resampled until the truncated hash fell below `q`. -/
theorem claim_C7_bounded_challenge (H : List Int → Nat) (q : Int) :
    (∀ a cipher alice_pk bob_setup r init nonces pf,
      AliceProof.generate H a cipher alice_pk bob_setup r q init nonces = some pf →
      0 ≤ pf.e.1 ∧ pf.e.1 < q) ∧
    (∀ a_enc mta b beta_prim ek setup r init nonces pf,
      BobProof.generate H a_enc mta b beta_prim ek setup r q init nonces = some pf →
      0 ≤ pf.e.1 ∧ pf.e.1 < q) ∧
    (∀ a_enc mta b beta_prim ek setup r init nonces pf,
      BobProofExt.generate H a_enc mta b beta_prim ek setup r q init nonces = some pf →
      0 ≤ pf.proof.e.1 ∧ pf.proof.e.1 < q) := by
  refine ⟨?_, ?_, ?_⟩
  · intro a cipher alice_pk bob_setup r init nonces pf hgen
    simp only [AliceProof.generate] at hgen
    split at hgen
    · simp at hgen
    · rename_i e heq
      rw [Option.some_inj] at hgen
      subst hgen
      have hs := create_hash_bounded_spec heq
      exact ⟨hs.1, hs.2.1⟩
  · intro a_enc mta b beta_prim ek setup r init nonces pf hgen
    simp only [BobProof.generate, create_hash_with_random_nonce] at hgen
    split at hgen
    · simp at hgen
    · rename_i e heq
      rw [Option.some_inj] at hgen
      subst hgen
      have hs := create_hash_bounded_spec heq
      exact ⟨hs.1, hs.2.1⟩
  · intro a_enc mta b beta_prim ek setup r init nonces pf hgen
    simp only [BobProofExt.generate, create_hash_with_random_nonce] at hgen
    split at hgen
    · split at hgen
      · simp at hgen
      · rename_i e heq
        rw [Option.some_inj] at hgen
        subst hgen
        have hs := create_hash_bounded_spec heq
        exact ⟨hs.1, hs.2.1⟩
    · simp at hgen

/-- C7 witness: the toy Alice proof generation emits the challenge 2, which
lies in `[0, 3)`. -/
theorem claim_C7_witness :
    0 ≤ (⟨16, 46, 29, (2, 0), 4, 7, 0⟩ : AliceProof).e.1 ∧
    (⟨16, 46, 29, (2, 0), 4, 7, 0⟩ : AliceProof).e.1 < 3 :=
  (claim_C7_bounded_challenge testH 3).1 2 158 testEk testPub 2
    ⟨3, 1, 0, 0⟩ [0] ⟨16, 46, 29, (2, 0), 4, 7, 0⟩ (by decide)

/-- C9 (amended): over the abort-aware embedding of `verify_proof` —
`verify_proof` fails with the challenge-mismatch error exactly when the
recomputed hash differs from the stored challenge (no exponentiation
precedes that check); when the challenge matches AND the exponentiation
`h1^r` is defined (`r` non-negative or `h1` invertible modulo `N_tilda`;
otherwise gmp aborts the process and no error is returned: see the
counterexample), it fails with the proof-mismatch error exactly when
`h1^r·h2^challenge mod N_tilda` differs from the stored `V`; and
`ZkpPublicSetup::verify` succeeds exactly when both sub-proofs pass. -/
theorem claim_C9_setup_error_semantics (H : List Int → Nat)
    (N_tilda h1 h2 : Int) (proof : ZkpSetupProof) (ps : ZkpPublicSetup) :
    (ZkpPublicSetup.verify_proof_checked H N_tilda h1 h2 proof =
        some (.error .challengeMismatch) ↔
      create_hash H [N_tilda, proof.V, h1, h2] ≠ proof.challenge) ∧
    (create_hash H [N_tilda, proof.V, h1, h2] = proof.challenge →
      (powm_checked h1 proof.r N_tilda).isSome →
      (ZkpPublicSetup.verify_proof_checked H N_tilda h1 h2 proof =
          some (.error .proofMismatch) ↔
        powm h1 proof.r N_tilda * powm h2 (create_hash H [N_tilda, proof.V, h1, h2])
          N_tilda % N_tilda ≠ proof.V)) ∧
    (ZkpPublicSetup.verify_checked H ps = some (.ok ()) ↔
      (ZkpPublicSetup.verify_proof_checked H ps.N_tilda ps.h1 ps.h2 ps.dlog_proof =
          some (.ok ()) ∧
       ZkpPublicSetup.verify_proof_checked H ps.N_tilda ps.h2 ps.h1 ps.inv_dlog_proof =
          some (.ok ()))) := by
  have hh2 : (0 : Int) ≤ create_hash H [N_tilda, proof.V, h1, h2] :=
    Int.natCast_nonneg _
  refine ⟨?_, ?_, ?_⟩
  · simp only [ZkpPublicSetup.verify_proof_checked]
    split_ifs with h1c
    · simp [h1c]
    · rcases hp1 : powm_checked h1 proof.r N_tilda with _ | p1 <;>
        rcases hp2 : powm_checked h2 (create_hash H [N_tilda, proof.V, h1, h2])
          N_tilda with _ | p2 <;>
        simp [h1c] <;> split_ifs <;> simp
  · intro hc hdef
    simp only [ZkpPublicSetup.verify_proof_checked]
    rw [if_neg (not_not_intro hc), powm_checked_eq_some_powm hdef,
      powm_checked_of_nonneg hh2]
    show (if powm h1 proof.r N_tilda *
          powm h2 (create_hash H [N_tilda, proof.V, h1, h2]) N_tilda % N_tilda =
          proof.V then some (Except.ok ())
        else some (Except.error ZkpSetupVerificationError.proofMismatch)) = _ ↔ _
    split_ifs with h2c <;> simp [h2c]
  · cases hv : ZkpPublicSetup.verify_proof_checked H ps.N_tilda ps.h1 ps.h2
        ps.dlog_proof with
    | none => simp [ZkpPublicSetup.verify_checked, hv]
    | some r =>
      cases r with
      | error e => simp [ZkpPublicSetup.verify_checked, hv]
      | ok u => simp [ZkpPublicSetup.verify_checked, hv]

/-- C9 counterexample: an adversarial setup proof with matching challenge,
negative response `r = −1` and base `h1 = 5` not invertible modulo
`N_tilda = 35`: the recomputation of `V′` reaches `h1^r` and gmp raises a
division-by-zero — the process aborts (modelled by `none`) and neither error
is returned, so the claimed proof-mismatch biconditional is false of the
program. -/
theorem claim_C9_counterexample :
    create_hash testH [35, 1, 5, 9] = (⟨1, 2, -1⟩ : ZkpSetupProof).challenge ∧
    Int.gcd 5 35 ≠ 1 ∧ (-1 : Int) < 0 ∧
    ZkpPublicSetup.verify_proof_checked testH 35 5 9 ⟨1, 2, -1⟩ = none :=
  ⟨by decide, by decide, by decide, by rfl⟩

/-- C9 witness: the toy public setup passes both sub-proof checks (no abort:
its bases are invertible), so its verification returns `Ok`. -/
theorem claim_C9_witness : ZkpPublicSetup.verify_checked testH testPub = some (.ok ()) :=
  (claim_C9_setup_error_semantics testH 35 4 9 testPub.dlog_proof testPub).2.2.mpr
    ⟨by rfl, by rfl⟩

/-- C10 (amended): when `alpha` is not invertible modulo `order`,
`ZkpPublicSetup::from_private_zkp_setup` aborts through
`expect("alpha non invertible")` (modelled by `none`) instead of returning a
typed error to the caller; no `InvAlphaNonInvertible` error value exists in
the source. -/
theorem claim_C10_panic_on_noninvertible (H : List Int → Nat) (s : ZkpSetup)
    (v1 v2 : Int) (h : Int.gcd s.alpha s.order ≠ 1) :
    ZkpPublicSetup.from_private_zkp_setup H s v1 v2 = none := by
  simp only [ZkpPublicSetup.from_private_zkp_setup, invert_eq_none h]

/-- C10 counterexample: for the setup with `alpha = 3`, `order = 6` (no
inverse), `from_private_zkp_setup` evaluates to `none`, i.e. the
`expect("alpha non invertible")` panic aborts the call — the function does
not return the typed error the claim asserts. -/
theorem claim_C10_counterexample :
    Int.gcd badSetup3.alpha badSetup3.order ≠ 1 ∧
    ZkpPublicSetup.from_private_zkp_setup testH badSetup3 1 1 = none := by
  constructor
  · decide
  · decide

/-- C10 witness: the amended statement at the concrete non-invertible
setup. -/
theorem claim_C10_witness :
    ZkpPublicSetup.from_private_zkp_setup testH badSetup3 2 2 = none :=
  claim_C10_panic_on_noninvertible testH badSetup3 2 2 (by decide)

lemma eq_of_cast_eq {m : Int} {nt : Nat} (hm : m = (nt : Int)) {x y : Int}
    (hx0 : 0 ≤ x) (hx : x < m) (hy0 : 0 ≤ y) (hy : y < m)
    (h : (x : ZMod nt) = (y : ZMod nt)) : x = y :=
  eq_of_emod_eq hx0 hx hy0 hy (emod_eq_of_cast_eq hm h)

/-- completeness of the embedded Schnorr sub-proof: when the base `b1` is a
unit whose order divides `ord` and the value `b2` is (modulo `m`) the power
`b1^wit`, the proof emitted by `dlog_proof` passes `verify_proof`, whatever
the sampled `v` and however the truncated remainder signed `r`. -/
lemma schnorr_verify_ok (H : List Int → Nat) {m : Int} {nt : Nat} [NeZero nt]
    (hm : m = (nt : Int)) (hmpos : 0 < m)
    (b1 b2 wit ord v : Int) (hord : 0 ≤ ord)
    (hg1 : Int.gcd b1 m = 1) (hg2 : Int.gcd b2 m = 1)
    (u : (ZMod nt)ˣ) (hu : (u : ZMod nt) = (b1 : ZMod nt))
    (huord : u ^ ord.toNat = 1)
    (hb2 : (b2 : ZMod nt) = ((u ^ wit : (ZMod nt)ˣ) : ZMod nt)) :
    ZkpPublicSetup.verify_proof H m b1 b2 (ZkpSetup.dlog_proof H m b1 b2 wit ord v) =
      .ok () := by
  subst hm
  have huordz : u ^ ((ord : Int)) = 1 := by
    rw [← Int.toNat_of_nonneg hord, zpow_natCast]
    exact huord
  have hmain : ∀ c : Int,
      powm b1 (Int.tmod (v - wit * c) ord) ((nt : Nat) : Int) *
        powm b2 c ((nt : Nat) : Int) % ((nt : Nat) : Int) =
      powm b1 v ((nt : Nat) : Int) := by
    intro c
    apply eq_of_cast_eq rfl (Int.emod_nonneg _ (by omega)) (Int.emod_lt_of_pos _ hmpos)
      (powm_nonneg hmpos) (powm_lt hmpos)
    rw [intCast_emod_cast]
    push_cast
    rw [cast_powm_unit rfl hg1 u hu, cast_powm_unit rfl hg2 (u ^ wit) hb2.symm,
      cast_powm_unit rfl hg1 u hu]
    rw [← Units.val_mul]
    congr 1
    rw [← zpow_mul, ← zpow_add]
    apply zpow_congr_of_modEq u huordz
    simpa using (tmod_modEq (v - wit * c) ord).add_right (wit * c)
  simp only [ZkpPublicSetup.verify_proof, ZkpSetup.dlog_proof]
  rw [if_neg (not_not_intro rfl), if_pos (hmain _)]

/-- C3 (amended): for every honestly generated setup whose `alpha` is in
addition invertible modulo `order` (true for all but a negligible fraction
of draws), `from_private_zkp_setup` succeeds and the resulting public setup
verifies `Ok`.  Without the invertibility proviso the claim fails: see the
counterexample. -/
theorem claim_C3_setup_soundness (H : List Int → Nat) (s : ZkpSetup) (v1 v2 : Int)
    (hs : HonestZkpSetup s) (hinv : Int.gcd s.alpha s.order = 1) :
    ∃ ps, ZkpPublicSetup.from_private_zkp_setup H s v1 v2 = some ps ∧
      ZkpPublicSetup.verify H ps = .ok () := by
  obtain ⟨p1, q1, hp1, hq1, hp2, hq2, hsp, hsq, hN, hordval, hal, hau, hg1, hord1, hh2⟩ := hs
  have hN1 : 1 < s.N_tilda := by
    have h2 := hp1.two_le
    have h3 := hq1.two_le
    rw [hN, hsp, hsq]
    push_cast
    nlinarith
  have hordpos : 0 < s.order := by
    have h2 := hp1.two_le
    have h3 := hq1.two_le
    rw [hordval]
    push_cast
    nlinarith
  have hm : s.N_tilda = ((s.N_tilda.toNat : Nat) : Int) :=
    (Int.toNat_of_nonneg (by omega)).symm
  haveI : NeZero s.N_tilda.toNat := ⟨by omega⟩
  obtain ⟨x, hxinv⟩ := invert_isSome_of_gcd hordpos hinv
  obtain ⟨u, hu⟩ := exists_unit_of_gcd (a := s.h1) (n := s.N_tilda.toNat) (by rw [← hm]; exact hg1)
  have hg2 : Int.gcd s.h2 s.N_tilda = 1 := by
    rw [hh2]
    exact gcd_powm hg1 (by omega)
  have huord : u ^ s.order.toNat = 1 := by
    apply Units.ext
    push_cast
    rw [hu, ← cast_powm hm (by omega), hord1]
    push_cast
    rfl
  have hb2 : (s.h2 : ZMod s.N_tilda.toNat) = ((u ^ s.alpha : (ZMod s.N_tilda.toNat)ˣ) :
      ZMod s.N_tilda.toNat) := by
    rw [hh2]
    exact cast_powm_unit hm hg1 u hu
  have hs1 := schnorr_verify_ok H hm (by omega) s.h1 s.h2 s.alpha s.order v1 (by omega)
    hg1 hg2 u hu huord hb2
  have hxspec := invert_spec hxinv
  have hb1 : (s.h1 : ZMod s.N_tilda.toNat) = (((u ^ s.alpha) ^ x : (ZMod s.N_tilda.toNat)ˣ) :
      ZMod s.N_tilda.toNat) := by
    have hz : (u ^ s.alpha) ^ x = u := by
      rw [← zpow_mul]
      have h1 : u ^ (s.alpha * x) = u ^ (1 : Int) :=
        zpow_congr_of_modEq u (by
          rw [← Int.toNat_of_nonneg hordpos.le, zpow_natCast]
          exact huord) hxspec.1
      rw [h1, zpow_one]
    rw [hz, hu]
  have huord2 : (u ^ s.alpha) ^ s.order.toNat = 1 := by
    rw [← zpow_natCast (u ^ s.alpha) s.order.toNat, ← zpow_mul, mul_comm, zpow_mul,
      zpow_natCast, huord, one_zpow]
  have hs2 := schnorr_verify_ok H hm (by omega) s.h2 s.h1 x s.order v2 (by omega)
    hg2 hg1 (u ^ s.alpha) hb2.symm huord2 hb1
  refine ⟨{ N_tilda := s.N_tilda, h1 := s.h1, h2 := s.h2,
            dlog_proof := ZkpSetup.dlog_proof H s.N_tilda s.h1 s.h2 s.alpha s.order v1,
            inv_dlog_proof := ZkpSetup.dlog_proof H s.N_tilda s.h2 s.h1 x s.order v2 },
    ?_, ?_⟩
  · simp only [ZkpPublicSetup.from_private_zkp_setup, hxinv]
  · simp only [ZkpPublicSetup.verify]
    rw [hs1, hs2]

/-- C3 counterexample: `badSetup` satisfies every honest-generation
post-condition (its `alpha = 2` lies in `[1, order)`), yet
`from_private_zkp_setup` hits the `expect("alpha non invertible")` panic
(modelled by `none`), so `verify()` can never return `Ok` — the claim as
stated is false. -/
theorem claim_C3_counterexample :
    HonestZkpSetup badSetup ∧
    ZkpPublicSetup.from_private_zkp_setup testH badSetup 1 1 = none := by
  constructor
  · exact ⟨2, 3, by decide⟩
  · decide

/-- C3 witness: the amended statement on the concrete toy setup. -/
theorem claim_C3_witness :
    ZkpPublicSetup.from_private_zkp_setup testH testSetup 1 1 = some testPub ∧
    ZkpPublicSetup.verify testH testPub = .ok () := by
  obtain ⟨ps, hps, hv⟩ := claim_C3_setup_soundness testH testSetup 1 1
    ⟨2, 3, by decide⟩ (by decide)
  have h0 : ZkpPublicSetup.from_private_zkp_setup testH testSetup 1 1 = some testPub := by
    decide
  rw [h0, Option.some_inj] at hps
  rw [← hps] at hv
  exact ⟨h0, hv⟩

lemma intCast_emod_cast2 {m : Int} {n : Nat} (hm : m = (n : Int)) (a : Int) :
    (((a % m) : Int) : ZMod n) = (a : ZMod n) := by
  subst hm
  exact intCast_emod_cast a n

lemma cast_invert2 {a x m : Int} {n : Nat} (hm : m = (n : Int))
    (h : invert a m = some x) : (a : ZMod n) * (x : ZMod n) = 1 := by
  subst hm
  exact cast_invert h

lemma toNat_mul {x y : Int} (hx : 0 ≤ x) (hy : 0 ≤ y) :
    (x * y).toNat = x.toNat * y.toNat := by
  have h1 : ((x * y).toNat : Int) = ((x.toNat * y.toNat : Nat) : Int) := by
    rw [Int.toNat_of_nonneg (mul_nonneg hx hy)]
    push_cast
    rw [Int.toNat_of_nonneg hx, Int.toNat_of_nonneg hy]
  exact_mod_cast h1

lemma one_add_nilpotent_pow2 {R : Type} [CommRing R] (x : R) (hx : x * x = 0) (k : ℕ) :
    (x + 1) ^ k = 1 + (k : R) * x := by
  rw [add_comm]
  exact one_add_nilpotent_pow x hx k

/-- the Fujisaki-Okamoto side check of Alice's proof passes on honest
values. -/
lemma alice_check1 {nt : Nat} [NeZero nt] {NT h1 h2 a ro alpha gamma e1 zinv : Int}
    (hm : NT = (nt : Int)) (hpos : 0 < NT)
    (he1 : 0 ≤ e1) (ha : 0 ≤ a) (hro : 0 ≤ ro) (hal : 0 ≤ alpha) (hga : 0 ≤ gamma)
    (hzinv : ((powm (powm h1 a NT * powm h2 ro NT % NT) e1 NT : Int) : ZMod nt) *
      (zinv : ZMod nt) = 1) :
    powm h1 (e1 * a + alpha) NT * powm h2 (e1 * ro + gamma) NT * zinv % NT =
      powm h1 alpha NT * powm h2 gamma NT % NT := by
  subst hm
  apply emod_eq_of_cast_eq rfl
  push_cast
  rw [cast_powm rfl (add_nonneg (mul_nonneg he1 ha) hal),
    cast_powm rfl (add_nonneg (mul_nonneg he1 hro) hga),
    cast_powm rfl hal, cast_powm rfl hga,
    Int.toNat_add (mul_nonneg he1 ha) hal, Int.toNat_add (mul_nonneg he1 hro) hga,
    toNat_mul he1 ha, toNat_mul he1 hro]
  rw [cast_powm rfl he1, intCast_emod_cast] at hzinv
  push_cast at hzinv
  rw [cast_powm rfl ha, cast_powm rfl hro] at hzinv
  linear_combination
    ((h1 : ZMod nt) ^ alpha.toNat * (h2 : ZMod nt) ^ gamma.toNat) * hzinv

/-- the Paillier side check of Alice's proof passes on honest values. -/
lemma alice_check2 {nn : Nat} [NeZero nn] {N a r alpha beta e1 cinv : Int}
    (hm : N * N = (nn : Int)) (hN1 : 1 < N)
    (he1 : 0 ≤ e1) (ha : 0 ≤ a) (hal : 0 ≤ alpha)
    (hcinv : ((powm ((a * N + 1) * powm r N (N * N) % (N * N)) e1 (N * N) : Int) :
      ZMod nn) * (cinv : ZMod nn) = 1) :
    ((e1 * a + alpha) * N + 1) % (N * N) *
        powm (powm r e1 N * beta % N) N (N * N) * cinv % (N * N) =
      (alpha * N + 1) * powm beta N (N * N) % (N * N) := by
  have hNpos : (0 : Int) < N := by omega
  have htt : (N : ZMod nn) * (N : ZMod nn) = 0 := by
    rw [← Int.cast_mul, hm]
    push_cast
    exact ZMod.natCast_self nn
  have hE : ((e1.toNat : ℕ) : ZMod nn) = ((e1 : Int) : ZMod nn) := by
    rw [← Int.cast_natCast, Int.toNat_of_nonneg he1]
  have hS : (powm r e1 N * beta % N) % N = (r ^ e1.toNat * beta) % N := by
    rw [Int.emod_emod_of_dvd _ dvd_rfl, powm, if_pos he1, Int.mul_emod,
      Int.emod_emod_of_dvd _ dvd_rfl, ← Int.mul_emod]
  have hlift := pow_emod_congr_sq hNpos hS
  have hlift2 : (((powm r e1 N * beta % N) : Int) : ZMod nn) ^ N.toNat =
      ((r : ZMod nn) ^ e1.toNat * (beta : ZMod nn)) ^ N.toNat := by
    have hlift3 : (powm r e1 N * beta % N) ^ N.toNat ≡
        (r ^ e1.toNat * beta) ^ N.toNat [ZMOD ((nn : Nat) : Int)] := by
      rw [← hm]
      exact hlift
    have hcast := (ZMod.intCast_eq_intCast_iff _ _ nn).mpr hlift3
    push_cast at hcast
    exact hcast
  apply emod_eq_of_cast_eq hm
  push_cast
  rw [intCast_emod_cast2 hm ((e1 * a + alpha) * N + 1),
    cast_powm hm hNpos.le, hlift2, cast_powm hm hNpos.le]
  push_cast
  rw [cast_powm hm he1, intCast_emod_cast2 hm] at hcinv
  push_cast at hcinv
  rw [cast_powm hm hNpos.le] at hcinv
  set E := ((e1 : Int) : ZMod nn) with hEdef
  set A := ((a : Int) : ZMod nn) with hAdef
  set Al := ((alpha : Int) : ZMod nn) with hAldef
  set t := ((N : Int) : ZMod nn) with htdef
  set rc := ((r : Int) : ZMod nn) with hrcdef
  set bc := ((beta : Int) : ZMod nn) with hbcdef
  set cc := ((cinv : Int) : ZMod nn) with hccdef
  have hAx : (A * t) * (A * t) = 0 := by
    linear_combination (A * A) * htt
  have hE1 : ((E * A + Al) * t + 1) * (rc ^ e1.toNat * bc) ^ N.toNat =
      ((Al * t + 1) * bc ^ N.toNat) * (((A * t + 1) * rc ^ N.toNat) ^ e1.toNat) := by
    rw [mul_pow (A * t + 1) (rc ^ N.toNat) e1.toNat, one_add_nilpotent_pow2 _ hAx, hE]
    linear_combination
      (-(Al * E * A * (rc ^ N.toNat) ^ e1.toNat * bc ^ N.toNat)) * htt
  linear_combination cc * hE1 + ((Al * t + 1) * bc ^ N.toNat) * hcinv

/-- C1 (amended): Alice completeness with the one proviso the range check
forces: for every secret `a ∈ [0, q)`, randomness `r ∈ Z_N*`, valid Paillier
key and honestly generated Bob setup, a proof produced by
`AliceProof::generate` passes `AliceProof::verify` whenever its response
`s1 = e·a + α` does not exceed `q³` (the complement has probability about
`e·a/q³ < 1/q` over the ephemeral `α ← [0, q³)`, but is not empty: see the
counterexample). -/
theorem claim_C1_alice_completeness (H : List Int → Nat) (q : Int) (s : ZkpSetup)
    (ps : ZkpPublicSetup) (ek : EncryptionKey) (a r : Int) (init : AliceZkpInit)
    (nonces : List Int) (pf : AliceProof)
    (hs : HonestZkpSetup s)
    (hpsN : ps.N_tilda = s.N_tilda) (hps1 : ps.h1 = s.h1) (hps2 : ps.h2 = s.h2)
    (hekn : 1 < ek.n) (heknn : ek.nn = ek.n * ek.n)
    (ha0 : 0 ≤ a) (haq : a < q)
    (hr : Int.gcd r ek.n = 1)
    (halpha : 0 ≤ init.alpha) (hbeta : Int.gcd init.beta ek.n = 1)
    (hgamma : 0 ≤ init.gamma) (hro : 0 ≤ init.ro)
    (hgen : AliceProof.generate H a (encrypt_with_chosen_randomness ek a r) ek ps r q
      init nonces = some pf)
    (hs1 : pf.s1 ≤ q ^ 3) :
    AliceProof.verify H q pf (encrypt_with_chosen_randomness ek a r) ek s = true := by
  obtain ⟨p1, q1, hp1, hq1, hp2, hq2, hsp, hsq, hNt, hordval, hal1, hau, hg1, hord1, hh2⟩ := hs
  have hN1 : 1 < s.N_tilda := by
    have h2 := hp1.two_le
    have h3 := hq1.two_le
    rw [hNt, hsp, hsq]
    push_cast
    nlinarith
  have hg2 : Int.gcd s.h2 s.N_tilda = 1 := by
    rw [hh2]
    exact gcd_powm hg1 (by omega)
  have hm : s.N_tilda = ((s.N_tilda.toNat : Nat) : Int) :=
    (Int.toNat_of_nonneg (by omega)).symm
  haveI : NeZero s.N_tilda.toNat := ⟨by omega⟩
  have hnn1 : (1 : Int) < ek.n * ek.n := by nlinarith
  have hmm : ek.n * ek.n = (((ek.n * ek.n).toNat : Nat) : Int) :=
    (Int.toNat_of_nonneg (by omega)).symm
  haveI : NeZero (ek.n * ek.n).toNat := ⟨by omega⟩
  simp only [AliceProof.generate, AliceZkpRound1.of, AliceZkpRound2.of,
    encrypt_with_chosen_randomness] at hgen
  rw [heknn, hpsN, hps1, hps2] at hgen
  split at hgen
  · simp at hgen
  · rename_i e heq
    rw [Option.some_inj] at hgen
    subst hgen
    obtain ⟨he0, helt, heform⟩ := create_hash_bounded_spec heq
    simp only [AliceProof.verify, encrypt_with_chosen_randomness]
    rw [heknn]
    rw [if_neg (not_not_intro heform.symm)]
    rw [if_neg (not_lt.mpr hs1)]
    have hgz : Int.gcd (powm s.h1 a s.N_tilda * powm s.h2 init.ro s.N_tilda % s.N_tilda)
        s.N_tilda = 1 := gcd_mul_emod (gcd_powm hg1 ha0) (gcd_powm hg2 hro)
    obtain ⟨zinv, hzinv⟩ := invert_isSome_of_gcd (by omega) (gcd_powm hgz he0)
    simp only [hzinv]
    rw [if_neg (not_not_intro
      (alice_check1 hm (by omega) he0 ha0 hro halpha hgamma
        (cast_invert2 hm hzinv)).symm)]
    have hcip : Int.gcd ((a * ek.n + 1) * powm r ek.n (ek.n * ek.n) % (ek.n * ek.n))
        (ek.n * ek.n) = 1 := by
      apply gcd_eq_one_of_isCoprime
      apply isCoprime_emod
      apply IsCoprime.mul_left
      · have h1 : IsCoprime (a * ek.n + 1) ek.n := by
          have h0 : IsCoprime (1 : Int) ek.n := isCoprime_one_left
          have h2 := h0.add_mul_left_left a
          have h3 : 1 + ek.n * a = a * ek.n + 1 := by ring
          rwa [h3] at h2
        exact h1.mul_right h1
      · have hr2 : IsCoprime r (ek.n * ek.n) :=
          (isCoprime_of_gcd_eq_one hr).mul_right (isCoprime_of_gcd_eq_one hr)
        exact isCoprime_of_gcd_eq_one
          (gcd_powm (gcd_eq_one_of_isCoprime hr2) (by omega))
    obtain ⟨cinv, hcinv⟩ := invert_isSome_of_gcd (by omega) (gcd_powm hcip he0)
    simp only [hcinv]
    rw [if_neg (not_not_intro
      (alice_check2 hmm hekn he0 ha0 halpha (cast_invert2 hmm hcinv)))]

/-- C1 counterexample: with the honest toy fixtures (`q = 3`, secret `a = 2`,
randomness `r = 2 ∈ Z_15*`, honest Bob setup) and the honestly sampled
ephemeral `α = 26 ∈ [0, q³)`, the generated proof has
`s1 = e·a + α = 30 > 27 = q³`, so the verifier's range check rejects it:
completeness as claimed — for every honest input and every honest internal
draw — is false. -/
theorem claim_C1_counterexample :
    HonestZkpSetup testSetup ∧
    testPub.N_tilda = testSetup.N_tilda ∧ testPub.h1 = testSetup.h1 ∧
    testPub.h2 = testSetup.h2 ∧
    (1 : Int) < testEk.n ∧ testEk.nn = testEk.n * testEk.n ∧
    (0 : Int) ≤ 2 ∧ (2 : Int) < 3 ∧ Int.gcd 2 testEk.n = 1 ∧
    (0 : Int) ≤ (26 : Int) ∧ (26 : Int) < 3 ^ 3 ∧ Int.gcd 1 testEk.n = 1 ∧
    AliceProof.generate testH 2 (encrypt_with_chosen_randomness testEk 2 2) testEk
      testPub 2 3 ⟨26, 1, 0, 0⟩ [0] = some ⟨16, 166, 16, (2, 0), 4, 30, 0⟩ ∧
    AliceProof.verify testH 3 ⟨16, 166, 16, (2, 0), 4, 30, 0⟩
      (encrypt_with_chosen_randomness testEk 2 2) testEk testSetup = false :=
  ⟨⟨2, 3, by decide⟩, by decide⟩

/-- C1 witness: the amended completeness applied to the toy fixtures with the
ephemeral `α = 3`, whose generated proof has `s1 = 7 ≤ 27` and verifies. -/
theorem claim_C1_witness :
    AliceProof.verify testH 3 ⟨16, 46, 29, (2, 0), 4, 7, 0⟩
      (encrypt_with_chosen_randomness testEk 2 2) testEk testSetup = true :=
  claim_C1_alice_completeness testH 3 testSetup testPub testEk 2 2 ⟨3, 1, 0, 0⟩ [0]
    ⟨16, 46, 29, (2, 0), 4, 7, 0⟩ ⟨2, 3, by decide⟩ rfl rfl rfl (by decide) (by decide)
    (by decide) (by decide) (by decide) (by decide) (by decide) (by decide) (by decide)
    (by decide) (by decide)

/-- both Fujisaki-Okamoto side checks of Bob's proof pass on honest values:
`h1^(e·x+u)·h2^(e·y+v) ≡ (h1^x·h2^y)^e · (h1^u·h2^v) (mod N_tilda)`. -/
lemma bob_fo_check {nt : Nat} [NeZero nt] {NT h1 h2 x y u v e1 : Int}
    (hm : NT = (nt : Int)) (hpos : 0 < NT)
    (he1 : 0 ≤ e1) (hx : 0 ≤ x) (hy : 0 ≤ y) (hu : 0 ≤ u) (hv : 0 ≤ v) :
    powm h1 (e1 * x + u) NT * powm h2 (e1 * y + v) NT % NT =
      powm (powm h1 x NT * powm h2 y NT % NT) e1 NT *
        (powm h1 u NT * powm h2 v NT % NT) % NT := by
  subst hm
  apply emod_eq_of_cast_eq rfl
  push_cast
  rw [cast_powm rfl (add_nonneg (mul_nonneg he1 hx) hu),
    cast_powm rfl (add_nonneg (mul_nonneg he1 hy) hv),
    cast_powm rfl he1, intCast_emod_cast]
  push_cast
  rw [cast_powm rfl hx, cast_powm rfl hy, cast_powm rfl hu, cast_powm rfl hv,
    Int.toNat_add (mul_nonneg he1 hx) hu, Int.toNat_add (mul_nonneg he1 hy) hv,
    toNat_mul he1 hx, toNat_mul he1 hy]
  ring

/-- the Paillier side check of Bob's proof passes on honest values. -/
lemma bob_paillier_check {nn : Nat} [NeZero nn] {N c1 b alpha beta gamma bp r e1 : Int}
    (hm : N * N = (nn : Int)) (hN1 : 1 < N)
    (he1 : 0 ≤ e1) (hb : 0 ≤ b) (hal : 0 ≤ alpha) (hbp : 0 ≤ bp) (hga : 0 ≤ gamma) :
    powm c1 (e1 * b + alpha) (N * N) *
        powm (powm r e1 N * beta % N) N (N * N) *
        ((e1 * bp + gamma) * N + 1) % (N * N) =
      powm (powm c1 b (N * N) * ((bp * N + 1) * powm r N (N * N) % (N * N)) % (N * N))
          e1 (N * N) *
        (powm c1 alpha (N * N) * (gamma * N + 1) * powm beta N (N * N) % (N * N)) %
        (N * N) := by
  have hNpos : (0 : Int) < N := by omega
  have htt : (N : ZMod nn) * (N : ZMod nn) = 0 := by
    rw [← Int.cast_mul, hm]
    push_cast
    exact ZMod.natCast_self nn
  have hE : ((e1.toNat : ℕ) : ZMod nn) = ((e1 : Int) : ZMod nn) := by
    rw [← Int.cast_natCast, Int.toNat_of_nonneg he1]
  have hS : (powm r e1 N * beta % N) % N = (r ^ e1.toNat * beta) % N := by
    rw [Int.emod_emod_of_dvd _ dvd_rfl, powm, if_pos he1, Int.mul_emod,
      Int.emod_emod_of_dvd _ dvd_rfl, ← Int.mul_emod]
  have hlift := pow_emod_congr_sq hNpos hS
  have hlift2 : (((powm r e1 N * beta % N) : Int) : ZMod nn) ^ N.toNat =
      ((r : ZMod nn) ^ e1.toNat * (beta : ZMod nn)) ^ N.toNat := by
    have hlift3 : (powm r e1 N * beta % N) ^ N.toNat ≡
        (r ^ e1.toNat * beta) ^ N.toNat [ZMOD ((nn : Nat) : Int)] := by
      rw [← hm]
      exact hlift
    have hcast := (ZMod.intCast_eq_intCast_iff _ _ nn).mpr hlift3
    push_cast at hcast
    exact hcast
  apply emod_eq_of_cast_eq hm
  have hs1n : (0 : Int) ≤ e1 * b + alpha := add_nonneg (mul_nonneg he1 hb) hal
  have hNn : (0 : Int) ≤ N := hNpos.le
  simp only [Int.cast_mul, Int.cast_add, Int.cast_one, intCast_emod_cast2 hm,
    cast_powm hm, he1, hb, hal, hbp, hga, hs1n, hNn]
  rw [hlift2, Int.toNat_add (mul_nonneg he1 hb) hal, toNat_mul he1 hb]
  set E := ((e1 : Int) : ZMod nn) with hEdef
  set C := ((c1 : Int) : ZMod nn) with hCdef
  set BP := ((bp : Int) : ZMod nn) with hBPdef
  set Ga := ((gamma : Int) : ZMod nn) with hGadef
  set t := ((N : Int) : ZMod nn) with htdef
  set rc := ((r : Int) : ZMod nn) with hrcdef
  set bc := ((beta : Int) : ZMod nn) with hbcdef
  have hBPx : (BP * t) * (BP * t) = 0 := by
    linear_combination (BP * BP) * htt
  rw [mul_pow (C ^ b.toNat) ((BP * t + 1) * rc ^ N.toNat) e1.toNat,
    mul_pow (BP * t + 1) (rc ^ N.toNat) e1.toNat,
    one_add_nilpotent_pow2 _ hBPx, hE]
  linear_combination
    (-(C ^ (e1.toNat * b.toNat + alpha.toNat) * (rc ^ N.toNat) ^ e1.toNat *
      bc ^ N.toNat * E * BP * Ga)) * htt

/-- the elliptic-curve binding check of Bob's extended proof passes on honest
values: `g·s1 = X·e + u` when `X = g·b`, `u = g·α` and `s1 = e·b + α`. -/
lemma bob_ec_check {q b alpha e1 : Int} (hq : 0 < q) :
    ec_mul_gen q (scalar_from q (e1 * b + alpha)) =
      ec_add q (ec_mul q (ec_mul_gen q b) (scalar_from q e1))
        (ec_mul_gen q (scalar_from q alpha)) := by
  have hmq : q = ((q.toNat : Nat) : Int) := (Int.toNat_of_nonneg hq.le).symm
  haveI : NeZero q.toNat := ⟨by omega⟩
  simp only [ec_mul_gen, ec_mul, ec_add, scalar_from]
  congr 1
  apply emod_eq_of_cast_eq hmq
  simp only [intCast_emod_cast2 hmq, Int.cast_mul, Int.cast_add]
  ring

/-- C2 (amended): Bob extended completeness with the range-check proviso:
for every Bob secret `b ∈ [0, q)`, every `beta_prim`, every ciphertext `c1`
and honestly computed `c2 = b·c1 ⊕ Enc(beta_prim; r)`, a proof produced by
`BobProofExt::generate` passes `BobProofExt::verify` whenever its response
`s1 = e·b + α` does not exceed `q³`, and it binds `X = g·b` (the complement
of the proviso is not empty: see the counterexample). -/
theorem claim_C2_bob_ext_completeness (H : List Int → Nat) (q : Int) (s : ZkpSetup)
    (ps : ZkpPublicSetup) (ek : EncryptionKey) (b beta_prim c1 r : Int)
    (init : BobZkpInit) (nonces : List Int) (pf : BobProofExt)
    (hs : HonestZkpSetup s)
    (hpsN : ps.N_tilda = s.N_tilda) (hps1 : ps.h1 = s.h1) (hps2 : ps.h2 = s.h2)
    (hekn : 1 < ek.n) (heknn : ek.nn = ek.n * ek.n)
    (hq : 0 < q) (hb0 : 0 ≤ b) (hbq : b < q) (hbp0 : 0 ≤ beta_prim)
    (halpha : 0 ≤ init.alpha) (hgamma : 0 ≤ init.gamma)
    (hro : 0 ≤ init.ro) (hro_prim : 0 ≤ init.ro_prim)
    (hsigma : 0 ≤ init.sigma) (htau : 0 ≤ init.tau)
    (hgen : BobProofExt.generate H c1
      (paillier_add ek (paillier_mul ek c1 b)
        (encrypt_with_chosen_randomness ek beta_prim r)) b beta_prim ek ps r q
      init nonces = some pf)
    (hs1 : pf.proof.s1 ≤ q ^ 3) :
    BobProofExt.verify H q pf c1
      (paillier_add ek (paillier_mul ek c1 b)
        (encrypt_with_chosen_randomness ek beta_prim r)) ek s = some true ∧
    pf.X = ec_mul_gen q b := by
  obtain ⟨p1, q1, hp1, hq1, hp2, hq2, hsp, hsq, hNt, hordval, hal1, hau, hg1, hord1, hh2⟩ := hs
  have hN1 : 1 < s.N_tilda := by
    have h2 := hp1.two_le
    have h3 := hq1.two_le
    rw [hNt, hsp, hsq]
    push_cast
    nlinarith
  have hm : s.N_tilda = ((s.N_tilda.toNat : Nat) : Int) :=
    (Int.toNat_of_nonneg (by omega)).symm
  haveI : NeZero s.N_tilda.toNat := ⟨by omega⟩
  have hnn1 : (1 : Int) < ek.n * ek.n := by nlinarith
  have hmm : ek.n * ek.n = (((ek.n * ek.n).toNat : Nat) : Int) :=
    (Int.toNat_of_nonneg (by omega)).symm
  haveI : NeZero (ek.n * ek.n).toNat := ⟨by omega⟩
  simp only [BobProofExt.generate, BobZkpRound1.of, BobZkpRound2.of,
    paillier_add, paillier_mul, encrypt_with_chosen_randomness] at hgen
  rw [heknn, hpsN, hps1, hps2] at hgen
  split at hgen
  · rename_i Xx Xy ux uy hXx hXy hux huy
    split at hgen
    · simp at hgen
    · rename_i e heq
      rw [Option.some_inj] at hgen
      subst hgen
      obtain ⟨he0, helt, heform⟩ := create_hash_bounded_spec heq
      refine ⟨?_, rfl⟩
      simp only [BobProofExt.verify, paillier_add, paillier_mul,
        encrypt_with_chosen_randomness]
      rw [heknn]
      simp only [hXx, hXy, hux, huy]
      split_ifs with hv1 hv2
      · exact absurd (bob_ec_check hq) hv2
      · rfl
      · exfalso
        apply hv1
        simp only [BobProof.verify_with_hash]
        rw [heknn]
        rw [if_neg (not_not_intro heform.symm)]
        rw [if_neg (not_lt.mpr hs1)]
        rw [← heform]
        rw [if_neg (not_not_intro
          (bob_fo_check hm (by omega) he0 hb0 hro halpha hro_prim))]
        rw [if_neg (not_not_intro
          (bob_paillier_check hmm hekn he0 hb0 halpha hbp0 hgamma))]
        rw [if_neg (not_not_intro
          (bob_fo_check hm (by omega) he0 hbp0 hsigma hgamma htau))]
  · simp at hgen

/-- C2 counterexample: with the honest toy fixtures (`q = 3`, secret `b = 1`,
`beta_prim = 0`, `r = 2 ∈ Z_15*`, honest Alice setup) and the honestly
sampled ephemeral `α = 26 ∈ [0, q³)`, the generated extended proof has
`s1 = e·b + α = 28 > 27 = q³`, so the verifier's range check rejects it:
completeness as claimed — for every honest input and every honest internal
draw — is false. -/
theorem claim_C2_counterexample :
    HonestZkpSetup testSetup ∧
    testPub.N_tilda = testSetup.N_tilda ∧ testPub.h1 = testSetup.h1 ∧
    testPub.h2 = testSetup.h2 ∧
    (1 : Int) < testEk.n ∧ testEk.nn = testEk.n * testEk.n ∧
    (0 : Int) < 3 ∧ (0 : Int) ≤ 1 ∧ (1 : Int) < 3 ∧ (0 : Int) ≤ 0 ∧
    (0 : Int) ≤ (26 : Int) ∧ (26 : Int) < 3 ^ 3 ∧
    BobProofExt.generate testH (encrypt_with_chosen_randomness testEk 2 2)
      (paillier_add testEk
        (paillier_mul testEk (encrypt_with_chosen_randomness testEk 2 2) 1)
        (encrypt_with_chosen_randomness testEk 0 2)) 1 0 testEk testPub 2 3
      ⟨26, 1, 0, 0, 0, 0, 0⟩ [0] =
      some ⟨⟨1, 169, 1, 4, 16, (2, 0), 4, 28, 0, 0, 0⟩, ⟨2⟩, ⟨1⟩⟩ ∧
    BobProofExt.verify testH 3 ⟨⟨1, 169, 1, 4, 16, (2, 0), 4, 28, 0, 0, 0⟩, ⟨2⟩, ⟨1⟩⟩
      (encrypt_with_chosen_randomness testEk 2 2)
      (paillier_add testEk
        (paillier_mul testEk (encrypt_with_chosen_randomness testEk 2 2) 1)
        (encrypt_with_chosen_randomness testEk 0 2)) testEk testSetup = some false :=
  ⟨⟨2, 3, by decide⟩, by decide⟩

/-- C2 witness: the amended completeness applied to the toy fixtures with
secret `b = 2` and ephemeral `α = 2`, whose generated proof has
`s1 = 6 ≤ 27`, verifies, and carries `X = g·b`. -/
theorem claim_C2_witness :
    BobProofExt.verify testH 3 ⟨⟨4, 214, 1, 16, 16, (2, 0), 4, 6, 0, 2, 0⟩, ⟨2⟩, ⟨2⟩⟩
      (encrypt_with_chosen_randomness testEk 2 2)
      (paillier_add testEk
        (paillier_mul testEk (encrypt_with_chosen_randomness testEk 2 2) 2)
        (encrypt_with_chosen_randomness testEk 1 2)) testEk testSetup = some true ∧
    (⟨⟨4, 214, 1, 16, 16, (2, 0), 4, 6, 0, 2, 0⟩, ⟨2⟩, ⟨2⟩⟩ : BobProofExt).X =
      ec_mul_gen 3 2 :=
  claim_C2_bob_ext_completeness testH 3 testSetup testPub testEk 2 1
    (encrypt_with_chosen_randomness testEk 2 2) 2 ⟨2, 1, 0, 0, 0, 0, 0⟩ [0]
    ⟨⟨4, 214, 1, 16, 16, (2, 0), 4, 6, 0, 2, 0⟩, ⟨2⟩, ⟨2⟩⟩ ⟨2, 3, by decide⟩
    rfl rfl rfl (by decide) (by decide) (by decide) (by decide) (by decide)
    (by decide) (by decide) (by decide) (by decide) (by decide) (by decide)
    (by decide) (by decide) (by decide)

/-- on a non-negative challenge, non-negative responses and a non-negative
Paillier modulus no exponentiation aborts: the abort-aware Bob verifier
returns a boolean. -/
lemma verify_with_hash_checked_isSome (pf : BobProof) (q : Int)
    (e : HashWithNonce) (a_enc mta : Int) (ek : EncryptionKey)
    (setup : ZkpSetup) (he : 0 ≤ e.1) (h1 : 0 ≤ pf.s1) (h2 : 0 ≤ pf.s2)
    (h3 : 0 ≤ pf.t1) (h4 : 0 ≤ pf.t2) (hn : 0 ≤ ek.n) :
    (BobProof.verify_with_hash_checked pf q e a_enc mta ek setup).isSome := by
  simp only [BobProof.verify_with_hash_checked, powm_checked_of_nonneg he,
    powm_checked_of_nonneg h1, powm_checked_of_nonneg h2,
    powm_checked_of_nonneg h3, powm_checked_of_nonneg h4,
    powm_checked_of_nonneg hn]
  split_ifs <;> rfl

/-- the abort-aware Alice verifier returns a boolean when the responses used
as exponents and the Paillier modulus are non-negative (the recomputed
challenge is a hash, hence non-negative). -/
lemma alice_verify_checked_isSome (H : List Int → Nat) (q : Int)
    (pf : AliceProof) (cipher : Int) (ek : EncryptionKey) (setup : ZkpSetup)
    (h1 : 0 ≤ pf.s1) (h2 : 0 ≤ pf.s2) (hn : 0 ≤ ek.n) :
    (AliceProof.verify_checked H q pf cipher ek setup).isSome := by
  simp only [AliceProof.verify_checked]
  split_ifs with hh hs
  · rfl
  · rfl
  · rw [not_not] at hh
    have he1 : 0 ≤ pf.e.1 := by
      rw [← hh]
      exact create_hash_with_nonce_nonneg H _ _
    simp only [powm_checked_of_nonneg he1, powm_checked_of_nonneg h1,
      powm_checked_of_nonneg h2, powm_checked_of_nonneg hn]
    repeat first | rfl | split

/-- the abort-aware plain Bob verifier returns a boolean under the same
conditions. -/
lemma bob_verify_checked_isSome (H : List Int → Nat) (q : Int) (pf : BobProof)
    (a_enc mta : Int) (ek : EncryptionKey) (setup : ZkpSetup)
    (h1 : 0 ≤ pf.s1) (h2 : 0 ≤ pf.s2) (h3 : 0 ≤ pf.t1) (h4 : 0 ≤ pf.t2)
    (hn : 0 ≤ ek.n) :
    (BobProof.verify_checked H q pf a_enc mta ek setup).isSome := by
  simp only [BobProof.verify_checked]
  exact verify_with_hash_checked_isSome pf q _ a_enc mta ek setup
    (create_hash_with_nonce_nonneg H _ _) h1 h2 h3 h4 hn

/-- the abort-aware extended Bob verifier returns a boolean when additionally
both transmitted points have affine coordinates. -/
lemma ext_verify_checked_isSome (H : List Int → Nat) (q : Int)
    (pf : BobProofExt) (a_enc mta : Int) (ek : EncryptionKey)
    (setup : ZkpSetup) (h1 : 0 ≤ pf.proof.s1) (h2 : 0 ≤ pf.proof.s2)
    (h3 : 0 ≤ pf.proof.t1) (h4 : 0 ≤ pf.proof.t2) (hn : 0 ≤ ek.n)
    (hX : (GE.x_coor q pf.X).isSome) (hu : (GE.x_coor q pf.u).isSome) :
    (BobProofExt.verify_checked H q pf a_enc mta ek setup).isSome := by
  obtain ⟨Xc, hXc⟩ := Option.isSome_iff_exists.mp hX
  obtain ⟨uc, huc⟩ := Option.isSome_iff_exists.mp hu
  have hXy : GE.y_coor q pf.X = some Xc := hXc
  have huy : GE.y_coor q pf.u = some uc := huc
  simp only [BobProofExt.verify_checked, hXc, hXy, huc, huy]
  have hsome := verify_with_hash_checked_isSome pf.proof q
    (create_hash_with_nonce H
      [ek.n, ek.n + 1, Xc, Xc, a_enc, mta, uc, uc, pf.proof.z, pf.proof.z_prim,
       pf.proof.t, pf.proof.v, pf.proof.w] pf.proof.e.2) a_enc mta ek setup
    (create_hash_with_nonce_nonneg H _ _) h1 h2 h3 h4 hn
  rcases hv : BobProof.verify_with_hash_checked pf.proof q
      (create_hash_with_nonce H
        [ek.n, ek.n + 1, Xc, Xc, a_enc, mta, uc, uc, pf.proof.z, pf.proof.z_prim,
         pf.proof.t, pf.proof.v, pf.proof.w] pf.proof.e.2) a_enc mta ek setup
      with _ | b
  · rw [hv] at hsome
    simp at hsome
  · cases b
    · rfl
    · split_ifs <;> rfl

/-- C5 (amended): verification does panic on adversarial input, in two
ways: `BobProofExt::verify` unwraps the affine coordinates of the
transmitted points before any check and panics when either is the identity,
and all three verifiers run gmp exponentiations whose exponents are
adversarial proof fields, so a negative response with a non-invertible base
aborts the process (see the counterexample).  They return a boolean on the
inputs that avoid both paths: when the responses used as exponents (`s1`,
`s2`, and `t1`, `t2` for Bob) and the Paillier modulus are non-negative
and, for the extended proof, both points have affine coordinates. -/
theorem claim_C5_verify_totality (H : List Int → Nat) (q : Int)
    (pfA : AliceProof) (cipher : Int) (ekA : EncryptionKey) (setupA : ZkpSetup)
    (pfB : BobProof) (a_enc mta : Int) (ekB : EncryptionKey) (setupB : ZkpSetup)
    (pfE : BobProofExt)
    (hA1 : 0 ≤ pfA.s1) (hA2 : 0 ≤ pfA.s2) (hAn : 0 ≤ ekA.n)
    (hB1 : 0 ≤ pfB.s1) (hB2 : 0 ≤ pfB.s2) (hB3 : 0 ≤ pfB.t1) (hB4 : 0 ≤ pfB.t2)
    (hBn : 0 ≤ ekB.n)
    (hE1 : 0 ≤ pfE.proof.s1) (hE2 : 0 ≤ pfE.proof.s2) (hE3 : 0 ≤ pfE.proof.t1)
    (hE4 : 0 ≤ pfE.proof.t2)
    (hX : (GE.x_coor q pfE.X).isSome) (hu : (GE.x_coor q pfE.u).isSome) :
    (AliceProof.verify_checked H q pfA cipher ekA setupA).isSome ∧
    (BobProof.verify_checked H q pfB a_enc mta ekB setupB).isSome ∧
    (BobProofExt.verify_checked H q pfE a_enc mta ekB setupB).isSome :=
  ⟨alice_verify_checked_isSome H q pfA cipher ekA setupA hA1 hA2 hAn,
   bob_verify_checked_isSome H q pfB a_enc mta ekB setupB hB1 hB2 hB3 hB4 hBn,
   ext_verify_checked_isSome H q pfE a_enc mta ekB setupB hE1 hE2 hE3 hE4 hBn hX hu⟩

/-- C5 counterexample: two concrete panics.  First, a Bob range proof with
negative response `s1 = −1` passes the hash check, the range check
(`−1 ≤ q³`) and the Fujisaki-Okamoto check (`z = 1`,
`z_prim = h1^s1·h2^s2 mod N_tilda = 9`), and then `a_enc^s1` reaches gmp
with the non-invertible ciphertext `a_enc = 15` (mod `225`): division by
zero, the process aborts instead of returning a boolean.  Second,
`BobProofExt::verify` panics on the coordinate unwrap when `X` is the
identity. -/
theorem claim_C5_counterexample :
    BobProof.verify_checked testH 3 ⟨0, 0, 0, 1, 9, (2, 0), 0, -1, 0, 0, 0⟩ 15 0
      testEk testSetup = none ∧
    BobProofExt.verify_checked testH 3 pfEbad 0 0 testEk testSetup = none :=
  ⟨by rfl, by rfl⟩

/-- C5 witness: the amended totality applied to concrete proofs with
non-negative responses and coordinate-having points: all three verifiers
return a boolean. -/
theorem claim_C5_witness :
    (AliceProof.verify_checked testH 3 pfA0 0 testEk testSetup).isSome ∧
    (BobProof.verify_checked testH 3 pfB0 0 0 testEk testSetup).isSome ∧
    (BobProofExt.verify_checked testH 3 pfE0 0 0 testEk testSetup).isSome :=
  claim_C5_verify_totality testH 3 pfA0 0 testEk testSetup pfB0 0 0 testEk testSetup
    pfE0 (by decide) (by decide) (by decide) (by decide) (by decide) (by decide)
    (by decide) (by decide) (by decide) (by decide) (by decide) (by decide)
    (by decide) (by decide)

/-- C8: `MessageB::new` attaches `RangeProof` when an `alice_zkp_setup` is
supplied with mode `MtA`, `RangeProofExt` when one is supplied with mode
`MtAwc`, and `DLogProofs` exactly when no setup was supplied. -/
theorem claim_C8_variant_selection (H : List Int → Nat) (q b : Int)
    (ek : EncryptionKey) (setup : Option ZkpPublicSetup) (msg : MessageA)
    (mode : MTAMode) (beta_prim r : Int) (init : BobZkpInit) (nonces : List Int)
    (k1 k2 : Int) (m : MessageB) (beta : Int)
    (hnew : MessageB.new H q b ek setup msg mode beta_prim r init nonces k1 k2 =
      some (m, beta)) :
    (setup.isSome = true → mode = MTAMode.MtA →
      ∃ p, m.proof = BobProofType.RangeProof p) ∧
    (setup.isSome = true → mode = MTAMode.MtAwc →
      ∃ p, m.proof = BobProofType.RangeProofExt p) ∧
    ((∃ p, m.proof = BobProofType.DLogProofs p) ↔ setup = none) := by
  cases setup with
  | none =>
    simp only [MessageB.new] at hnew
    rw [Option.some_inj, Prod.mk.injEq] at hnew
    obtain ⟨hm, hb⟩ := hnew
    subst hm
    refine ⟨fun h => by simp at h, fun h => by simp at h, ⟨fun _ => rfl, fun _ => ⟨_, rfl⟩⟩⟩
  | some zs =>
    cases mode with
    | MtA =>
      simp only [MessageB.new] at hnew
      split at hnew
      · exact absurd hnew (by simp)
      · rename_i p hp
        rw [Option.some_inj, Prod.mk.injEq] at hnew
        obtain ⟨hm, hb⟩ := hnew
        subst hm
        refine ⟨?_, ?_, ?_, ?_⟩
        · exact fun _ _ => ⟨p, rfl⟩
        · intro _ h
          exact nomatch h
        · rintro ⟨p', hp'⟩
          simp at hp'
        · intro h
          simp at h
    | MtAwc =>
      simp only [MessageB.new] at hnew
      split at hnew
      · exact absurd hnew (by simp)
      · rename_i p hp
        rw [Option.some_inj, Prod.mk.injEq] at hnew
        obtain ⟨hm, hb⟩ := hnew
        subst hm
        refine ⟨?_, ?_, ?_, ?_⟩
        · intro _ h
          exact nomatch h
        · exact fun _ _ => ⟨p, rfl⟩
        · rintro ⟨p', hp'⟩
          simp at hp'
        · intro h
          simp at h

/-- C8 witness: the variant selection applied to a concrete `MtA` call with a
setup supplied, which attaches a `RangeProof` and not `DLogProofs`. -/
theorem claim_C8_witness :
    MessageB.new testH 3 2 testEk (some testPub) ⟨158, none⟩ MTAMode.MtA 1 2
      ⟨2, 1, 0, 0, 0, 0, 0⟩ [0] 0 0 =
      some ({ c := 32, proof :=
        BobProofType.RangeProof ⟨4, 214, 1, 16, 16, (2, 0), 4, 6, 0, 2, 0⟩ }, 2) ∧
    (((some testPub : Option ZkpPublicSetup).isSome = true →
        MTAMode.MtA = MTAMode.MtA →
        ∃ p, ({ c := 32, proof := (BobProofType.RangeProof ⟨4, 214, 1, 16, 16, (2, 0), 4, 6, 0, 2, 0⟩) } : MessageB).proof = BobProofType.RangeProof p) ∧
     ((some testPub : Option ZkpPublicSetup).isSome = true →
        MTAMode.MtA = MTAMode.MtAwc →
        ∃ p, ({ c := 32, proof := (BobProofType.RangeProof ⟨4, 214, 1, 16, 16, (2, 0), 4, 6, 0, 2, 0⟩) } : MessageB).proof = BobProofType.RangeProofExt p) ∧
     ((∃ p, ({ c := 32, proof := (BobProofType.RangeProof ⟨4, 214, 1, 16, 16, (2, 0), 4, 6, 0, 2, 0⟩) } : MessageB).proof = BobProofType.DLogProofs p) ↔
        (some testPub : Option ZkpPublicSetup) = none)) :=
  ⟨by decide,
   claim_C8_variant_selection testH 3 2 testEk (some testPub) ⟨158, none⟩ MTAMode.MtA 1 2
     ⟨2, 1, 0, 0, 0, 0, 0⟩ [0] 0 0
     { c := 32, proof := BobProofType.RangeProof ⟨4, 214, 1, 16, 16, (2, 0), 4, 6, 0, 2, 0⟩ }
     2 (by decide)⟩
